import Mathlib

set_option maxRecDepth 100000

/-!
# Verification of the hierarchical chunking / retrieval pipeline

Shallow embedding of the Python sources of the insurance-claim retrieval
system (`src/data/chunker.py`, `src/utils/helpers.py`,
`src/retrieval/auto_merging_retriever.py`,
`src/retrieval/hierarchical_retriever.py`,
`src/retrieval/summary_retriever.py`, `src/config/constants.py`).

Modelling conventions:
* Python `float` scores are modelled as `ℚ`; the arithmetic performed by the
  code on them (sums, `+1.0`, `+2.0`, division by a list length) is exact on
  the values used, so `ℚ` is faithful.
* `int(len(tokens) * 0.2)` is modelled as `len / 5` (floor): for every list
  length arising here the float product `n * 0.2` truncates to `n / 5`.
* The `tiktoken` cl100k tokenizer is external to the repository.  It is
  modelled by a whitespace word tokenizer: `encode` splits a string into
  maximal whitespace-free runs, `decode` joins the tokens with single
  spaces.  Like the real BPE tokenizer (where a space is absorbed into the
  following token), this model is additive across the separators the code
  uses (`' '.join`, `'\n\n'.join`): the token count of a join is the sum of
  the token counts of the parts, which is exactly the arithmetic the
  chunking loop performs with `current_tokens`.
* Python's stable `list.sort(key=..., reverse=...)` is modelled by
  `List.insertionSort` with the corresponding total preorder; Mathlib's
  `orderedInsert` places an earlier element before later equal ones, which
  is precisely the stability guarantee of Python's sort.
* Python dicts are modelled by structures with `Option` fields for keys that
  may be absent; `d.get(k, default)` becomes `Option.getD`.
-/

/-! ## Character and string primitives (Python `\s`, `str.strip`, `str.split`) -/

/-- Python `\s` for the ASCII range: space, tab, newline, carriage return,
vertical tab, form feed. -/
def isWS (c : Char) : Bool :=
  c = ' ' || c = '\t' || c = '\n' || c = '\r' || c = '\x0b' || c = '\x0c'

/-- Python `\w` (word character) for the ASCII range: letters, digits, underscore. -/
def isWordChar (c : Char) : Bool :=
  ('a' ≤ c && c ≤ 'z') || ('A' ≤ c && c ≤ 'Z') || ('0' ≤ c && c ≤ '9') || c = '_'

/-- ASCII digit. -/
def isDigitChar (c : Char) : Bool :=
  '0' ≤ c && c ≤ '9'

/-- ASCII letter. -/
def isLetterChar (c : Char) : Bool :=
  ('a' ≤ c && c ≤ 'z') || ('A' ≤ c && c ≤ 'Z')

/-- `str.strip()` on a character list: drop whitespace from both ends. -/
def stripL (l : List Char) : List Char :=
  ((l.dropWhile isWS).reverse.dropWhile isWS).reverse

/-- Python `str.strip()`. -/
def pystrip (s : String) : String :=
  ⟨stripL s.data⟩

/-- Helper for `splitSepL`: `acc` is the current piece, reversed.  The
separator is `s0 :: srest` (non-empty by construction).  The scanners in
this file recurse on a `fuel` argument initialized to the list length so
that they are structurally recursive (and hence kernel-evaluable); each
step consumes at least one character per unit of fuel, so the fuel-zero
base case is never reached from the wrappers. -/
def splitSepAux (s0 : Char) (srest : List Char) (acc : List Char) :
    Nat → List Char → List (List Char)
  | _, [] => [acc.reverse]
  | 0, l => [acc.reverse ++ l]
  | fuel + 1, c :: rest =>
    if (s0 :: srest).isPrefixOf (c :: rest) then
      acc.reverse :: splitSepAux s0 srest [] fuel ((c :: rest).drop (srest.length + 1))
    else
      splitSepAux s0 srest (c :: acc) fuel rest

/-- Python `str.split(sep)` for a non-empty separator, on character lists:
leftmost non-overlapping occurrences of `sep` split the list. -/
def splitSepL (sep : List Char) (l : List Char) : List (List Char) :=
  match sep with
  | [] => [l]
  | s0 :: srest => splitSepAux s0 srest [] l.length l

/-- Python `str.split(sep)` (non-empty `sep`). -/
def pysplit (sep : String) (s : String) : List String :=
  (splitSepL sep.data s.data).map (fun l => ⟨l⟩)

/-- Python `'\n\n'.join` / `' '.join`. -/
def joinSep (sep : String) : List String → String
  | [] => ""
  | [x] => x
  | x :: y :: rest => x ++ sep ++ joinSep sep (y :: rest)

/-! ## The word tokenizer model of `tiktoken` -/

/-- Word splitter: `acc` is the current word, reversed.  A word is a maximal
run of non-whitespace characters. -/
def wordsAux (acc : List Char) : List Char → List (List Char)
  | [] => if acc = [] then [] else [acc.reverse]
  | c :: rest =>
    if isWS c then
      (if acc = [] then wordsAux [] rest else acc.reverse :: wordsAux [] rest)
    else
      wordsAux (c :: acc) rest

/-- Model of `tokenizer.encode`: the list of whitespace-separated words. -/
def encodeT (s : String) : List String :=
  (wordsAux [] s.data).map (fun l => ⟨l⟩)

/-- Model of `tokenizer.decode`: join the tokens with single spaces. -/
def decodeT (ts : List String) : String :=
  joinSep " " ts

/-- Model of `self._count_tokens(text)` = `len(self.tokenizer.encode(text))`. -/
def tcount (s : String) : Nat :=
  (encodeT s).length

/-- Python `tokens[-k:]` (for `k ≤ len`, the last `k` elements). -/
def lastN (k : Nat) (l : List String) : List String :=
  l.drop (l.length - k)

/-! ### Tokenizer lemmas -/

/-- Word count of a character list. -/
def wcount (l : List Char) : Nat :=
  (wordsAux [] l).length

/-! ## `helpers.normalize_text` -/

/-- `re.sub(r'\s+', ' ', text)`: collapse each maximal whitespace run into a
single space.  `prevWS` records whether the previous character was part of
a whitespace run already replaced. -/
def collapseWSAux (prevWS : Bool) : List Char → List Char
  | [] => []
  | c :: rest =>
    if isWS c then
      (if prevWS then collapseWSAux true rest else ' ' :: collapseWSAux true rest)
    else c :: collapseWSAux false rest

/-- `re.sub(r'\n\s*\n', '\n', text)`: a newline, a greedy whitespace run up
to the last newline it contains, and that newline collapse to one newline
(fuel-structured scanner, fuel never exhausted from the wrapper). -/
def nlSubAux : Nat → List Char → List Char
  | _, [] => []
  | 0, l => l
  | fuel + 1, c :: rest =>
    if c = '\n' then
      if '\n' ∈ rest.takeWhile isWS then
        '\n' :: nlSubAux fuel
          (rest.drop ((rest.takeWhile isWS).length - 1 -
            (rest.takeWhile isWS).reverse.findIdx (· = '\n') + 1))
      else '\n' :: nlSubAux fuel rest
    else c :: nlSubAux fuel rest

/-- `helpers.normalize_text`: collapse whitespace, normalize line breaks,
strip. -/
def normalizeText (s : String) : String :=
  pystrip ⟨nlSubAux s.data.length (collapseWSAux false s.data)⟩

/-! ## `ChunkingStrategy._split_text_intelligent` and the sentence splitter -/

/-- `re.split(r'([.!?]\s+)', para)` followed by the recombination
`sentences[i] + sentences[i+1]`: each piece is a maximal run ending in a
sentence terminator followed by its whitespace run (the final piece has no
terminator). -/
def sentSplitAux (acc : List Char) : Nat → List Char → List (List Char)
  | _, [] => [acc.reverse]
  | 0, l => [acc.reverse ++ l]
  | fuel + 1, c :: rest =>
    if (c = '.' || c = '!' || c = '?') &&
        (match rest with | r :: _ => isWS r | [] => false) then
      (acc.reverse ++ c :: rest.takeWhile isWS) ::
        sentSplitAux [] fuel (rest.drop (rest.takeWhile isWS).length)
    else
      sentSplitAux (c :: acc) fuel rest

/-- The recombined `re.split(r'([.!?]\s+)', s)` pieces (not stripped, not
filtered — as used by `MediumChunkStrategy`). -/
def sentencesRaw (s : String) : List String :=
  (sentSplitAux [] s.data.length s.data).map (fun l => ⟨l⟩)

/-- `ChunkingStrategy._split_text_intelligent`: split into paragraphs, split
each into sentences, strip, drop empties. -/
def splitTextIntelligent (text : String) : List String :=
  let paragraphs := pysplit "\n\n" text
  let segments := paragraphs.flatMap sentencesRaw
  (segments.map pystrip).filter (fun s => s ≠ "")

/-! ## Chunk size constants (`constants.py`) and the chunk data model -/

inductive ChunkLevel
  | small
  | medium
  | large
deriving DecidableEq, Repr

/-- `ChunkSize.value`. -/
def ChunkLevel.value : ChunkLevel → String
  | .small => "small"
  | .medium => "medium"
  | .large => "large"

/-- `CHUNK_SIZE_TOKENS` lower bounds. -/
def minTokensOf : ChunkLevel → Nat
  | .small => 100
  | .medium => 500
  | .large => 1500

/-- `CHUNK_SIZE_TOKENS` upper bounds. -/
def maxTokensOf : ChunkLevel → Nat
  | .small => 200
  | .medium => 800
  | .large => 2000

/-- `target_tokens = (self.min_tokens + self.max_tokens) // 2`. -/
def targetTokensOf (l : ChunkLevel) : Nat :=
  (minTokensOf l + maxTokensOf l) / 2

/-- The `section_metadata` dict built by `HierarchicalChunker.chunk_document`. -/
structure SectionMeta where
  sectionId : String
  sectionNumber : Nat
  header : String
  documentId : String
  claimId : String
  parentId : String
deriving DecidableEq, Repr

/-- A chunk dict as built by `_create_chunk`. -/
structure Chunk where
  text : String
  tokens : Nat
  chunkIndex : Nat
  level : ChunkLevel
  metadata : Option SectionMeta
deriving DecidableEq, Repr

/-- `_create_chunk(text, index, metadata)`. -/
def mkChunk (level : ChunkLevel) (text : String) (index : Nat)
    (md : Option SectionMeta) : Chunk :=
  { text := text, tokens := tcount text, chunkIndex := index, level := level,
    metadata := md }

/-- `_get_overlap_text`: decode the last `int(len(tokens) * 0.2)` tokens
(empty when that is zero). -/
def overlapText (text : String) : String :=
  let tokens := encodeT text
  let overlapTokens := tokens.length / 5
  if overlapTokens > 0 then decodeT (lastN overlapTokens tokens) else ""

/-! ## The chunking loops

The three strategies share two code blocks that are duplicated verbatim in
the source: the "finalize current chunk if the next piece would overflow
`max_tokens`, then append the piece" block, and the "finalize once
`target_tokens` is reached" block.  They are factored out here; `sep` is
`' '` for the small strategy and `'\n\n'` for medium/large. -/

/-- Loop state: chunks emitted so far, `current_chunk` buffer,
`current_tokens`. -/
abbrev ChunkState := List Chunk × List String × Nat

/-- Guard-and-append: `if current_tokens + piece_tokens > max_tokens and
current_chunk: ...` followed by `current_chunk.append(piece);
current_tokens += piece_tokens`. -/
def stepGA (level : ChunkLevel) (md : Option SectionMeta) (sep : String)
    (maxT : Nat) (st : ChunkState) (piece : String) : ChunkState :=
  let pt := tcount piece
  let st1 : ChunkState :=
    if st.2.2 + pt > maxT ∧ st.2.1 ≠ [] then
      let ct := joinSep sep st.2.1
      let chunks1 := st.1 ++ [mkChunk level ct st.1.length md]
      let ov := overlapText ct
      (chunks1, if ov ≠ "" then [ov] else [], if ov ≠ "" then tcount ov else 0)
    else st
  (st1.1, st1.2.1 ++ [piece], st1.2.2 + pt)

/-- `if current_tokens >= target_tokens: ...` (finalize and seed overlap). -/
def emitTarget (level : ChunkLevel) (md : Option SectionMeta) (sep : String)
    (targetT : Nat) (st : ChunkState) : ChunkState :=
  if st.2.2 ≥ targetT then
    let ct := joinSep sep st.2.1
    let chunks1 := st.1 ++ [mkChunk level ct st.1.length md]
    let ov := overlapText ct
    (chunks1, if ov ≠ "" then [ov] else [], if ov ≠ "" then tcount ov else 0)
  else st

/-- Final `if current_chunk: chunks.append(...)` after the loop. -/
def finalizeChunks (level : ChunkLevel) (md : Option SectionMeta) (sep : String)
    (st : ChunkState) : List Chunk :=
  if st.2.1 ≠ [] then
    st.1 ++ [mkChunk level (joinSep sep st.2.1) st.1.length md]
  else st.1

/-- The `SmallChunkStrategy.chunk_text` segment loop. -/
def smallLoop (md : Option SectionMeta) : List String → ChunkState → List Chunk
  | [], st => finalizeChunks .small md " " st
  | seg :: rest, st =>
      smallLoop md rest
        (emitTarget .small md " " (targetTokensOf .small)
          (stepGA .small md " " (maxTokensOf .small) st seg))

/-- `SmallChunkStrategy.chunk_text`. -/
def smallChunkText (text : String) (md : Option SectionMeta) : List Chunk :=
  smallLoop md (splitTextIntelligent (normalizeText text)) ([], [], 0)

/-- The shared loop of `MediumChunkStrategy.chunk_text` and
`LargeChunkStrategy.chunk_text`: an outer unit (paragraph resp. section)
that alone exceeds `max_tokens` is split by `innerSplit` (sentences
resp. paragraphs) and its pieces are guard-appended one at a time;
otherwise the unit itself is guard-appended; the `target_tokens` check runs
once per outer unit. -/
def coarseLoop (level : ChunkLevel) (md : Option SectionMeta)
    (innerSplit : String → List String) :
    List String → ChunkState → List Chunk
  | [], st => finalizeChunks level md "\n\n" st
  | unit :: rest, st =>
      let st1 : ChunkState :=
        if tcount unit > maxTokensOf level then
          (innerSplit unit).foldl (stepGA level md "\n\n" (maxTokensOf level)) st
        else
          stepGA level md "\n\n" (maxTokensOf level) st unit
      coarseLoop level md innerSplit rest
        (emitTarget level md "\n\n" (targetTokensOf level) st1)

/-- `MediumChunkStrategy.chunk_text`. -/
def mediumChunkText (text : String) (md : Option SectionMeta) : List Chunk :=
  let t := normalizeText text
  coarseLoop .medium md sentencesRaw (pysplit "\n\n" t) ([], [], 0)

/-- Lookahead `(?=[A-Z][^\n]{0,80}\n)` of the section-splitting regex. -/
def lookaheadHeader : List Char → Bool
  | [] => false
  | c :: rest => ('A' ≤ c && c ≤ 'Z') && (rest.take 81).contains '\n'

/-- `re.split(r'\n\n+(?=[A-Z][^\n]{0,80}\n)', text)`: split at maximal
newline runs of length ≥ 2 whose lookahead sees a header line; the matched
newlines are dropped (no capture group). -/
def largeSecAux (acc : List Char) : Nat → List Char → List (List Char)
  | _, [] => [acc.reverse]
  | 0, l => [acc.reverse ++ l]
  | fuel + 1, c :: rest =>
    if c = '\n' then
      match rest with
      | d :: rest2 =>
        if d = '\n' then
          if lookaheadHeader (rest2.drop (rest2.takeWhile (fun x => x = '\n')).length) then
            acc.reverse :: largeSecAux [] fuel
              (rest2.drop (rest2.takeWhile (fun x => x = '\n')).length)
          else
            largeSecAux ((c :: d :: rest2.takeWhile (fun x => x = '\n')).reverse ++ acc) fuel
              (rest2.drop (rest2.takeWhile (fun x => x = '\n')).length)
        else largeSecAux (c :: acc) fuel rest
      | [] => largeSecAux (c :: acc) fuel rest
    else largeSecAux (c :: acc) fuel rest

/-- The section list of `LargeChunkStrategy.chunk_text`: the regex split,
falling back to a paragraph split when it produced a single section. -/
def largeSections (t : String) : List String :=
  let sections0 := (largeSecAux [] t.data.length t.data).map (fun l => (⟨l⟩ : String))
  if sections0.length = 1 then pysplit "\n\n" t else sections0

/-- `LargeChunkStrategy.chunk_text`. -/
def largeChunkText (text : String) (md : Option SectionMeta) : List Chunk :=
  let t := normalizeText text
  coarseLoop .large md (pysplit "\n\n") (largeSections t) ([], [], 0)

/-! ## `HierarchicalChunker.chunk_document` -/

/-- One element of `document.sections` (a dict with `text`, optional
`section_id`, optional `header`). -/
structure SectionData where
  text : String := ""
  sectionId : Option String := none
  header : Option String := none
deriving DecidableEq, Repr

/-- A document as produced by `PDFLoader`: raw text plus optional sections
and metadata. -/
structure Document where
  text : String := ""
  sections : List SectionData := []
  metadata : List (String × String) := []
deriving DecidableEq, Repr

/-- The hierarchy annotations added to each chunk dict by `chunk_document`. -/
structure AChunk where
  text : String
  tokens : Nat
  chunkIndex : Nat
  level : ChunkLevel
  metadata : Option SectionMeta
  chunkId : String
  parentId : String
  sectionId : String
  documentId : String
  claimId : String
deriving DecidableEq, Repr

/-- The per-section entry appended to `hierarchical_structure["sections"]`. -/
structure SectionEntry where
  meta : SectionMeta
  smallCount : Nat
  mediumCount : Nat
  largeCount : Nat
deriving DecidableEq, Repr

/-- The `hierarchical_structure` dict returned by `chunk_document`. -/
structure HierStructure where
  claimId : String
  documentId : String
  sections : List SectionEntry
  small : List AChunk
  medium : List AChunk
  large : List AChunk
  metadata : List (String × String)
deriving DecidableEq, Repr

/-- `chunk["chunk_id"] = f"{section_id}_{level}_{i}"` and the other
hierarchy fields added in the `for i, chunk in enumerate(...)` loops. -/
def annotateChunk (lvl : String) (sectionId documentId claimId : String)
    (i : Nat) (c : Chunk) : AChunk :=
  { text := c.text, tokens := c.tokens, chunkIndex := c.chunkIndex,
    level := c.level, metadata := c.metadata,
    chunkId := sectionId ++ "_" ++ lvl ++ "_" ++ toString i,
    parentId := sectionId, sectionId := sectionId,
    documentId := documentId, claimId := claimId }

/-- The `for section_data in sections` loop of `chunk_document`:
whitespace-only sections are skipped (`continue`) before the counter is
incremented. -/
def chunkSectionLoop (documentId claimId : String) :
    List SectionData → Nat → HierStructure → HierStructure
  | [], _, acc => acc
  | sd :: rest, sectionIndex, acc =>
    if pystrip sd.text = "" then
      chunkSectionLoop documentId claimId rest sectionIndex acc
    else
      let sectionId := sd.sectionId.getD ("section_" ++ toString (sectionIndex + 1))
      let meta : SectionMeta :=
        { sectionId := sectionId, sectionNumber := sectionIndex + 1,
          header := sd.header.getD "", documentId := documentId,
          claimId := claimId, parentId := documentId }
      let smallCs := smallChunkText sd.text (some meta)
      let medCs := mediumChunkText sd.text (some meta)
      let largeCs := largeChunkText sd.text (some meta)
      chunkSectionLoop documentId claimId rest (sectionIndex + 1)
        { acc with
          sections := acc.sections ++
            [{ meta := meta, smallCount := smallCs.length,
               mediumCount := medCs.length, largeCount := largeCs.length }],
          small := acc.small ++
            smallCs.mapIdx (annotateChunk "small" sectionId documentId claimId),
          medium := acc.medium ++
            medCs.mapIdx (annotateChunk "medium" sectionId documentId claimId),
          large := acc.large ++
            largeCs.mapIdx (annotateChunk "large" sectionId documentId claimId) }

/-- `HierarchicalChunker.chunk_document`. -/
def chunkDocument (doc : Document) (documentId claimId : String) : HierStructure :=
  let sections :=
    if doc.sections ≠ [] then doc.sections
    else [{ text := doc.text, sectionId := some "section_1" }]
  chunkSectionLoop documentId claimId sections 0
    { claimId := claimId, documentId := documentId, sections := [],
      small := [], medium := [], large := [], metadata := doc.metadata }

/-! ## Retrieval result model (`auto_merging_retriever.py`, retrievers) -/

/-- The metadata dict attached to retrieval candidates.  `sectionName`
models the `"section"` key. -/
structure RMeta where
  sectionId : Option String := none
  sectionName : Option String := none
  positionIndex : Option Int := none
  chunkText : Option String := none
deriving DecidableEq, Repr, Inhabited

/-- A retrieval-result dict.  Keys that only some pipeline stages add are
`Option` fields (absent = `none`). -/
structure RRes where
  id : String := ""
  text : String := ""
  metadata : RMeta := {}
  score : ℚ := 0
  merged : Bool := false
  mergedCount : Option Nat := none
  mergedIds : Option (List String) := none
  timeMatchCount : Option Nat := none
  timeRerankedScore : Option ℚ := none
  sectionMatch : Option Bool := none
  sectionRerankedScore : Option ℚ := none
deriving DecidableEq, Repr, Inhabited

/-- `chunk.get("metadata", {}).get("section_id", "unknown")`. -/
def secKeyOf (c : RRes) : String :=
  c.metadata.sectionId.getD "unknown"

/-- `c.get("metadata", {}).get("position_index", 0)`. -/
def posOf (c : RRes) : Int :=
  c.metadata.positionIndex.getD 0

/-- Append `c` to the group of key `k` (insertion order preserved), like
`dict.setdefault(section_id, []).append(chunk)`. -/
def addToGroups (k : String) (c : RRes) :
    List (String × List RRes) → List (String × List RRes)
  | [] => [(k, [c])]
  | (k0, l0) :: rest =>
    if k0 = k then (k0, l0 ++ [c]) :: rest else (k0, l0) :: addToGroups k c rest

/-- The `sections` dict built by `merge_chunks` (Python dicts preserve
first-seen key order). -/
def groupBySection (chunks : List RRes) : List (String × List RRes) :=
  chunks.foldl (fun gs c => addToGroups (secKeyOf c) c gs) []

/-- Stable ascending sort key for `sort(key=position_index)`. -/
def byPosAsc : RRes → RRes → Prop :=
  fun a b => posOf a ≤ posOf b

instance : DecidableRel byPosAsc := fun a b => inferInstanceAs (Decidable (_ ≤ _))

instance : IsTotal RRes byPosAsc := ⟨fun a b => le_total (posOf a) (posOf b)⟩

instance : IsTrans RRes byPosAsc := ⟨fun _ _ _ h h' => le_trans h h'⟩

/-- Stable descending sort by a rational key (`sort(key=..., reverse=True)`). -/
def keyDesc (f : RRes → ℚ) : RRes → RRes → Prop :=
  fun a b => f b ≤ f a

instance (f : RRes → ℚ) : DecidableRel (keyDesc f) :=
  fun a b => inferInstanceAs (Decidable (_ ≤ _))

instance (f : RRes → ℚ) : IsTotal RRes (keyDesc f) :=
  ⟨fun a b => le_total (f b) (f a)⟩

instance (f : RRes → ℚ) : IsTrans RRes (keyDesc f) :=
  ⟨fun _ _ _ h h' => le_trans h' h⟩

/-- `merged_results.sort(key=lambda x: x.get("score", 0.0), reverse=True)`. -/
abbrev byScoreDesc : RRes → RRes → Prop :=
  keyDesc RRes.score

/-- The inner `while j < len(chunks)` scan of `_merge_adjacent_in_section`:
absorb successors while `next_pos - current_pos <= 1` and the successor's
`section_id` equals the (fixed) first chunk's; `current_pos` becomes
`next_pos` after each absorption. -/
def takeGroup (curSec : Option String) : Int → List RRes → List RRes × List RRes
  | _, [] => ([], [])
  | curPos, n :: rest =>
    if posOf n - curPos ≤ 1 ∧ n.metadata.sectionId = curSec then
      let t := takeGroup curSec (posOf n) rest
      (n :: t.1, t.2)
    else ([], n :: rest)

/-- The merge groups formed by the outer `while i < len(chunks)` loop
(fuel-structured; the fuel-zero case is unreachable from `mergeGroups`). -/
def mergeGroupsFuel : Nat → List RRes → List (List RRes)
  | _, [] => []
  | 0, _ => []
  | fuel + 1, c :: rest =>
    let t := takeGroup c.metadata.sectionId (posOf c) rest
    (c :: t.1) :: mergeGroupsFuel fuel t.2

def mergeGroups (l : List RRes) : List (List RRes) :=
  mergeGroupsFuel l.length l

/-- `AutoMergingRetriever._create_merged_chunk`. -/
def createMergedChunk (chunks : List RRes) (totalScore : ℚ) : RRes :=
  { id := (chunks.headD default).id,
    text := joinSep "\n\n" ((chunks.map RRes.text).filter (fun t => t ≠ "")),
    metadata := (chunks.headD default).metadata,
    score := if chunks = [] then 0 else totalScore / chunks.length,
    merged := true,
    mergedCount := some chunks.length,
    mergedIds := some (chunks.map RRes.id) }

/-- `AutoMergingRetriever._merge_adjacent_in_section`: each merge group of
size > 1 becomes a merged chunk (`total_score` is the sum of the group's
scores), a group of size 1 contributes its chunk unchanged. -/
def mergeAdjacentInSection (l : List RRes) : List RRes :=
  (mergeGroups l).map (fun g =>
    if 1 < g.length then createMergedChunk g ((g.map RRes.score).sum)
    else g.headD default)

/-- `AutoMergingRetriever.merge_chunks` (`max_results=None` and
`max_results=0` are falsy, so no truncation then). -/
def mergeChunks (chunks : List RRes) (maxResults : Option Nat) : List RRes :=
  if chunks = [] then []
  else
    let mergedResults := (groupBySection chunks).flatMap
      (fun p => mergeAdjacentInSection (List.insertionSort byPosAsc p.2))
    let sorted := List.insertionSort byScoreDesc mergedResults
    match maxResults with
    | some k => if k ≠ 0 then sorted.take k else sorted
    | none => sorted

/-! ## Regex scanners of `_extract_time_tokens` / `_extract_section_ids`

The scanners reproduce Python `re.findall` semantics (leftmost,
non-overlapping, greedy with the backtracking the pattern admits) for the
three patterns appearing in the source, over ASCII text. -/

/-- Python substring test `needle in hay`. -/
def occursInL (needle : List Char) : List Char → Bool
  | [] => needle.isEmpty
  | c :: rest => needle.isPrefixOf (c :: rest) || occursInL needle rest

/-- Python `tok in combined` on strings. -/
def strOccursIn (needle hay : String) : Bool :=
  occursInL needle.data hay.data

/-- `\b` at the position after a match fragment: next char absent or not a
word character. -/
def boundaryOk : List Char → Bool
  | [] => true
  | c :: _ => !isWordChar c

/-- After the hour digits of `\b\d{1,2}:\d{2}(?::\d{2})?\b`: `:` then two
digits, then a greedy optional `:` + two digits, then the boundary. -/
def matchTimeAfterHour (hour : List Char) : List Char → Option (List Char × List Char)
  | ':' :: m1 :: m2 :: rest =>
    if isDigitChar m1 && isDigitChar m2 then
      match rest with
      | ':' :: s1 :: s2 :: rest2 =>
        if isDigitChar s1 && isDigitChar s2 && boundaryOk rest2 then
          some (hour ++ [':', m1, m2, ':', s1, s2], rest2)
        else if boundaryOk rest then some (hour ++ [':', m1, m2], rest) else none
      | _ => if boundaryOk rest then some (hour ++ [':', m1, m2], rest) else none
    else none
  | _ => none

/-- Try the time pattern at the current position (the `\b` before the first
digit is checked by the caller); the two-digit hour is tried before the
one-digit hour (greedy `\d{1,2}`). -/
def matchTimeHere : List Char → Option (List Char × List Char)
  | d1 :: d2 :: rest =>
    if isDigitChar d1 && isDigitChar d2 then
      match matchTimeAfterHour [d1, d2] rest with
      | some r => some r
      | none => matchTimeAfterHour [d1] (d2 :: rest)
    else if isDigitChar d1 then matchTimeAfterHour [d1] (d2 :: rest)
    else none
  | _ => none

/-- `re.findall` scanner for the time pattern (fuel-structured). -/
def findTimeMatchesF : Nat → Bool → List Char → List (List Char)
  | 0, _, _ => []
  | _ + 1, _, [] => []
  | fuel + 1, prevIsWord, c :: rest =>
    if !prevIsWord then
      match matchTimeHere (c :: rest) with
      | some (m, rest2) => m :: findTimeMatchesF fuel true rest2
      | none => findTimeMatchesF fuel (isWordChar c) rest
    else findTimeMatchesF fuel (isWordChar c) rest

/-- Try `\b\d{1,2}\s+[A-Za-z]{3,9}\s+\d{4}\b` at the current position: the
digit run must have length 1–2, the letter run length 3–9, the year run
exactly 4, each followed as the pattern demands (longer runs make every
backtracking attempt fail, so run lengths are checked directly). -/
def matchDateHere (l : List Char) : Option (List Char × List Char) :=
  let ds := l.takeWhile isDigitChar
  let r1 := l.dropWhile isDigitChar
  if ds.length = 0 || 2 < ds.length then none
  else
    let ws1 := r1.takeWhile isWS
    let r2 := r1.dropWhile isWS
    if ws1.length = 0 then none
    else
      let ls := r2.takeWhile isLetterChar
      let r3 := r2.dropWhile isLetterChar
      if ls.length < 3 || 9 < ls.length then none
      else
        let ws2 := r3.takeWhile isWS
        let r4 := r3.dropWhile isWS
        if ws2.length = 0 then none
        else
          let ys := r4.takeWhile isDigitChar
          let r5 := r4.dropWhile isDigitChar
          if ys.length = 4 && boundaryOk r5 then
            some (ds ++ ws1 ++ ls ++ ws2 ++ ys, r5)
          else none

/-- `re.findall` scanner for the date pattern (fuel-structured). -/
def findDateMatchesF : Nat → Bool → List Char → List (List Char)
  | 0, _, _ => []
  | _ + 1, _, [] => []
  | fuel + 1, prevIsWord, c :: rest =>
    if !prevIsWord then
      match matchDateHere (c :: rest) with
      | some (m, rest2) => m :: findDateMatchesF fuel true rest2
      | none => findDateMatchesF fuel (isWordChar c) rest
    else findDateMatchesF fuel (isWordChar c) rest

/-- Order-preserving deduplication.  `_extract_time_tokens` builds a Python
`set`, whose iteration order is unspecified; only membership and counts of
the extracted tokens are consumed downstream, for which this ordered model
is equivalent. -/
def pyDedup (l : List String) : List String :=
  l.foldl (fun acc t => if t ∈ acc then acc else acc ++ [t]) []

/-- `HierarchicalRetriever._extract_time_tokens`. -/
def extractTimeTokens (query : String) : List String :=
  let times := (findTimeMatchesF query.data.length false query.data).map
    (fun l => (⟨l⟩ : String))
  let dates := (findDateMatchesF query.data.length false query.data).map
    (fun l => (⟨l⟩ : String))
  pyDedup (((times ++ dates).map pystrip).filter (fun t => t ≠ ""))

/-- Try `\bsection\s+(\d+)\b` (case-insensitive) at the current position;
returns the captured digit group. -/
def matchSectionHere (l : List Char) : Option (List Char × List Char) :=
  if (l.take 7).map Char.toLower = "section".data then
    let r1 := l.drop 7
    let ws := r1.takeWhile isWS
    let r2 := r1.dropWhile isWS
    if ws.length = 0 then none
    else
      let ds := r2.takeWhile isDigitChar
      let r3 := r2.dropWhile isDigitChar
      if ds.length ≠ 0 && boundaryOk r3 then some (ds, r3) else none
  else none

/-- `re.findall` scanner for the section pattern (fuel-structured). -/
def findSectionMatchesF : Nat → Bool → List Char → List (List Char)
  | 0, _, _ => []
  | _ + 1, _, [] => []
  | fuel + 1, prevIsWord, c :: rest =>
    if !prevIsWord then
      match matchSectionHere (c :: rest) with
      | some (m, rest2) => m :: findSectionMatchesF fuel true rest2
      | none => findSectionMatchesF fuel (isWordChar c) rest
    else findSectionMatchesF fuel (isWordChar c) rest

/-- `_extract_section_ids` (identical in `HierarchicalRetriever` and
`SummaryRetriever`): matches mapped to `section_<digits>`, deduplicated
preserving order. -/
def extractSectionIds (query : String) : List String :=
  pyDedup ((findSectionMatchesF query.data.length false query.data).map
    (fun m => "section_" ++ (⟨m⟩ : String)))

/-! ## The rerank passes (`hierarchical_retriever.py`) -/

/-- `combined = f"{text} {chunk_text}"`. -/
def combinedTextOf (r : RRes) : String :=
  r.text ++ " " ++ r.metadata.chunkText.getD ""

/-- `match_count = sum(1 for token in time_tokens if token in combined)`. -/
def timeMatchCountOf (timeTokens : List String) (r : RRes) : Nat :=
  timeTokens.countP (fun t => strOccursIn t (combinedTextOf r))

/-- Sort key `r.get("time_reranked_score", r.get("score", 0.0))`. -/
def timeKeyOf (r : RRes) : ℚ :=
  r.timeRerankedScore.getD r.score

/-- `HierarchicalRetriever._rerank_by_time`. -/
def rerankByTime (query : String) (results : List RRes) (topK : Option Nat) :
    List RRes :=
  if results = [] then results
  else
    let timeTokens := extractTimeTokens query
    if timeTokens = [] then
      match topK with
      | some k => if k ≠ 0 then results.take k else results
      | none => results
    else
      let reranked := results.map (fun r =>
        { r with
          timeMatchCount := some (timeMatchCountOf timeTokens r),
          timeRerankedScore := some (r.score + (timeMatchCountOf timeTokens r : ℚ)) })
      let sorted := List.insertionSort (keyDesc timeKeyOf) reranked
      match topK with
      | some k => if k ≠ 0 then sorted.take k else sorted
      | none => sorted

/-- Python `meta.get("section_id") or meta.get("section")` (`None` and `""`
are falsy). -/
def pyOrStr : Option String → Option String → Option String
  | some s, b => if s ≠ "" then some s else b
  | none, b => b

/-- `chunk_section_id` of `_rerank_by_section`. -/
def resSectionId (r : RRes) : Option String :=
  pyOrStr r.metadata.sectionId r.metadata.sectionName

/-- `match_count = 1 if chunk_section_id in section_ids else 0` (`None` is
never in a list of strings). -/
def sectionMatchCountOf (sectionIds : List String) (r : RRes) : Nat :=
  match resSectionId r with
  | some s => if s ∈ sectionIds then 1 else 0
  | none => 0

/-- Sort key `r.get("section_reranked_score", r.get("score", 0.0))`. -/
def sectionKeyOf (r : RRes) : ℚ :=
  r.sectionRerankedScore.getD r.score

/-- `_rerank_by_section` (identical in `HierarchicalRetriever` and
`SummaryRetriever`). -/
def rerankBySection (query : String) (results : List RRes) (topK : Option Nat) :
    List RRes :=
  if results = [] then results
  else
    let sectionIds := extractSectionIds query
    if sectionIds = [] then
      match topK with
      | some k => if k ≠ 0 then results.take k else results
      | none => results
    else
      let reranked := results.map (fun r =>
        { r with
          sectionMatch := some (sectionMatchCountOf sectionIds r ≠ 0),
          sectionRerankedScore :=
            some (r.score + 2 * (sectionMatchCountOf sectionIds r : ℚ)) })
      let sorted := List.insertionSort (keyDesc sectionKeyOf) reranked
      match topK with
      | some k => if k ≠ 0 then sorted.take k else sorted
      | none => sorted

/-! ## `SummaryRetriever.retrieve` (vector store abstracted) -/

/-- One raw hit of a ChromaDB `collection.query` answer (parallel arrays
`ids`/`documents`/`metadatas`/`distances`, zipped). -/
structure RawHit where
  id : String := ""
  document : String := ""
  metadata : RMeta := {}
  distance : ℚ := 0
deriving DecidableEq, Repr, Inhabited

/-- The result-formatting loop of `SummaryRetriever.retrieve`
(`score = 1.0 - distance`). -/
def formatHit (h : RawHit) : RRes :=
  { id := h.id, text := h.document, metadata := h.metadata,
    score := 1 - h.distance }

/-- A `where` clause / filter dict: ordered association list. -/
abbrev WhereClause := List (String × String)

/-- Python dict assignment `d[k] = v`. -/
def assocSet (k v : String) : WhereClause → WhereClause
  | [] => [(k, v)]
  | (k0, v0) :: rest =>
    if k0 = k then (k, v) :: rest else (k0, v0) :: assocSet k v rest

/-- Python `d.get(k)`. -/
def assocGet (k : String) : WhereClause → Option String
  | [] => none
  | (k0, v0) :: rest => if k0 = k then some v0 else assocGet k rest

/-- Python truthiness of `d.get(k)` for string values. -/
def truthyOpt : Option String → Bool
  | some s => s ≠ ""
  | none => false

/-- Lines 113–129 of `summary_retriever.py`: with section reranking on and
exactly one referenced section, narrow the `where` clause to it. -/
def summaryWhereClause (query : String) (filters : WhereClause)
    (useSectionRerank : Bool) : WhereClause :=
  if useSectionRerank then
    match extractSectionIds query with
    | [sid] => assocSet "section_id" sid filters
    | _ => filters
  else filters

/-- Lines 134–138: `n_candidates = top_k`, widened fourfold when reranking
without a section filter. -/
def summaryNCandidates (topK : Nat) (useSectionRerank : Bool)
    (whereClause : WhereClause) : Nat :=
  if useSectionRerank && !truthyOpt (assocGet "section_id" whereClause) then
    topK * 4
  else topK

/-- The output shape of `RetrieverInterface.format_results`
(`include_metadata=True`). -/
structure FRes where
  text : String := ""
  score : ℚ := 0
  id : String := ""
  metadata : RMeta := {}
deriving DecidableEq, Repr, Inhabited

def formatResults (rs : List RRes) : List FRes :=
  rs.map (fun r =>
    { text := r.text, score := r.score, id := r.id, metadata := r.metadata })

/-- `SummaryRetriever.retrieve`, with the vector store abstracted as a
function from the `where` clause and `n_results` to raw hits (query
validation, embedding generation and logging elided; `top_k` is the
resolved value `top_k or config.TOP_K_RESULTS`). -/
def summaryRetrieve (store : WhereClause → Nat → List RawHit) (query : String)
    (topK : Nat) (filters : WhereClause) (useSectionRerank : Bool) : List FRes :=
  let whereClause := summaryWhereClause query filters useSectionRerank
  let nCandidates := summaryNCandidates topK useSectionRerank whereClause
  let formatted := (store whereClause nCandidates).map formatHit
  let formatted :=
    if useSectionRerank ∧ formatted ≠ [] then rerankBySection query formatted none
    else formatted
  formatResults (formatted.take topK)

/-! ### Overlap-seeding invariants of the chunking loops -/

/-- The overlap-seeding relation between consecutive chunks: the next
chunk's text begins with the decoded 20 % overlap tail of the previous
chunk (the empty string when the previous chunk has fewer than 5 tokens). -/
def ovStep (c c' : Chunk) : Prop :=
  ∃ rest : String, c'.text = overlapText c.text ++ rest

/-! ### Concrete inputs for the chunking claims -/

/-- `n` copies of `s`, concatenated. -/
def repStr : Nat → String → String
  | 0, _ => ""
  | n + 1, s => s ++ repStr n s

/-- A 149-word sentence followed by a 172-word sentence: every segment is
well under the 200-token small budget, yet the overlap seeded from the
first chunk makes the second chunk reach 201 tokens. -/
def c1CexText : String :=
  repStr 148 "a " ++ "a. " ++ repStr 171 "b " ++ "b."

/-- A 151-word sentence followed by a short one: the first chunk has 151
tokens, so the ceiling of 20 % (31 tokens) differs from the floor the code
uses (30 tokens). -/
def c2CexText : String :=
  joinSep " " ((List.range 151).map (fun i => "q" ++ toString i)) ++ ". b."

def dfltChunk : Chunk := mkChunk .small "" 0 none

/-- Witness for `c3_merge_groups_single_section`. -/
def c3w1 : RRes :=
  { id := "x1"
    metadata := { sectionId := some "section_7", positionIndex := some 0 } }

def c3w2 : RRes :=
  { id := "x2"
    metadata := { sectionId := some "section_7", positionIndex := some 1 } }

/-! ### Auto-merge group results (C4, C10) -/

def sc1 : RRes :=
  { id := "a"
    text := "t1"
    score := 9/10
    metadata := { sectionId := some "section_1", positionIndex := some 0 } }

def sc2 : RRes :=
  { id := "b"
    text := "t2"
    score := 2/5
    metadata := { sectionId := some "section_1", positionIndex := some 1 } }

def sc3 : RRes :=
  { id := "c"
    text := "t3"
    score := 19/20
    metadata := { sectionId := some "section_1", positionIndex := some 2 } }

/-- The single merged result the engine returns for the C4 scenario. -/
def scMerged : RRes :=
  { id := "a"
    text := "t1\n\nt2\n\nt3"
    metadata := { sectionId := some "section_1", positionIndex := some 0 }
    score := (9/10 + 2/5 + 19/20) / 3
    merged := true
    mergedCount := some 3
    mergedIds := some ["a", "b", "c"] }

/-- Witness for `c4_merge_group_results`: a singleton group passes through
unchanged and the merged-chunk fields are as described. -/
def c4w1 : RRes :=
  { id := "w1"
    text := "wt1"
    score := 1
    metadata := { sectionId := some "section_9", positionIndex := some 0 } }

def c4w2 : RRes :=
  { id := "w2"
    text := "wt2"
    score := 2
    metadata := { sectionId := some "section_9", positionIndex := some 1 } }

/-- Witness for `c10_missing_position_merges`. -/
def c10w1 : RRes :=
  { id := "m1"
    metadata := { sectionId := some "section_2" } }

def c10w2 : RRes :=
  { id := "m2"
    metadata := { sectionId := some "section_2" } }

/-! ### C5: the time rerank pass -/

/-- Modelled from the claim's words (C5): the number of extracted tokens
occurring verbatim as substrings of the candidate's text concatenated
directly — with no separator — with its metadata `chunk_text`.  The code
instead inserts a space between the two (`combinedTextOf`). -/
def claimTimeMatchCount (timeTokens : List String) (r : RRes) : Nat :=
  timeTokens.countP (fun t => strOccursIn t (r.text ++ r.metadata.chunkText.getD ""))

def c5CexRes : RRes :=
  { id := "r"
    text := "1:2"
    score := 0
    metadata := { chunkText := some "3" } }

/-! ### C6: the "March 3rd" scenario -/

def c6Query : String := "What time did the collision occur on March 3rd?"

def c6Special : RRes :=
  { id := "s"
    text := "the crash happened at 08:20:05"
    score := 0
    metadata := { chunkText := some "report of 3 March 2025" } }

def c6Other : RRes :=
  { id := "o"
    text := "irrelevant summary"
    score := 1 }

def c6AmendedQuery : String := "What time did the collision occur on 3 March 2025?"

/-- Witness for `c6_march3rd_amended` at a concrete candidate set. -/
def c6wOther : RRes :=
  { id := "o2"
    text := "nothing relevant here"
    score := 0 }

def c7Query : String := "summarize section 2 please"

def c7HitA : RawHit :=
  { id := "a"
    document := "alpha text"
    distance := 0 }

def c7HitB : RawHit :=
  { id := "b"
    document := "beta text"
    metadata := { sectionId := some "section_2" }
    distance := 0 }

def c7Store : WhereClause → Nat → List RawHit := fun _ _ => [c7HitA, c7HitB]

/-! ## Theorems -/
theorem tcount_eq_wcount (s : String) : tcount s = wcount s.data := by
  simp [tcount, encodeT, wcount]

theorem wordsAux_append_ws (c : Char) (hc : isWS c = true) :
    ∀ (a b acc : List Char),
      wordsAux acc (a ++ c :: b) = wordsAux acc a ++ wordsAux [] b := by
  intro a
  induction a with
  | nil =>
    intro b acc
    simp only [List.nil_append, wordsAux, hc, if_pos]
    by_cases h : acc = [] <;> simp [h, wordsAux]
  | cons d a ih =>
    intro b acc
    cases hd : isWS d with
    | true =>
      simp only [List.cons_append, wordsAux, hd, if_pos]
      by_cases h : acc = [] <;> simp [h, ih]
    | false =>
      simp only [List.cons_append, wordsAux, hd]
      simp only [Bool.false_eq_true, if_false]
      exact ih b (d :: acc)

theorem wcount_append_ws (c : Char) (hc : isWS c = true) (a b : List Char) :
    wcount (a ++ c :: b) = wcount a + wcount b := by
  simp [wcount, wordsAux_append_ws c hc a b]

theorem wcount_cons_ws (c : Char) (hc : isWS c = true) (l : List Char) :
    wcount (c :: l) = wcount l := by
  simp [wcount, wordsAux, hc]

theorem wordsAux_all_nonws :
    ∀ (l acc : List Char), (∀ x ∈ acc, isWS x = false) →
      ∀ w ∈ wordsAux acc l, w ≠ [] ∧ ∀ x ∈ w, isWS x = false := by
  intro l
  induction l with
  | nil =>
    intro acc hacc w hw
    simp only [wordsAux] at hw
    by_cases h : acc = []
    · simp [h] at hw
    · simp only [if_neg h, List.mem_singleton] at hw
      subst hw
      refine ⟨by simpa using h, ?_⟩
      intro x hx
      exact hacc x (List.mem_reverse.mp hx)
  | cons c rest ih =>
    intro acc hacc w hw
    simp only [wordsAux] at hw
    cases hc : isWS c with
    | true =>
      simp only [hc, if_pos] at hw
      by_cases h : acc = []
      · simp only [h, if_pos rfl] at hw
        exact ih [] (by simp) w hw
      · simp only [if_neg h, List.mem_cons] at hw
        rcases hw with hw | hw
        · subst hw
          refine ⟨by simpa using h, ?_⟩
          intro x hx
          exact hacc x (List.mem_reverse.mp hx)
        · exact ih [] (by simp) w hw
    | false =>
      simp only [hc, Bool.false_eq_true, if_false] at hw
      refine ih (c :: acc) ?_ w hw
      intro x hx
      rcases List.mem_cons.mp hx with h | h
      · subst h; exact hc
      · exact hacc x h

/-- A single non-empty whitespace-free word encodes to itself. -/
theorem wordsAux_single (w : List Char) (hw : w ≠ [])
    (hnws : ∀ x ∈ w, isWS x = false) :
    wordsAux [] w = [w] := by
  suffices h : ∀ (v acc : List Char), acc.reverse ++ v ≠ [] →
      (∀ x ∈ v, isWS x = false) → wordsAux acc v = [acc.reverse ++ v] by
    simpa using h w [] (by simpa using hw) hnws
  intro v
  induction v with
  | nil =>
    intro acc hne _
    simp only [wordsAux]
    have hacc : ¬ acc = [] := by
      intro h; subst h; simp at hne
    simp [hacc]
  | cons c v ih =>
    intro acc _ hnws
    have hc : isWS c = false := hnws c (by simp)
    simp only [wordsAux, hc, Bool.false_eq_true, if_false]
    rw [ih (c :: acc) (by simp) (fun x hx => hnws x (List.mem_cons_of_mem _ hx))]
    simp

theorem wcount_word (w : List Char) (hw : w ≠ [])
    (hnws : ∀ x ∈ w, isWS x = false) : wcount w = 1 := by
  simp [wcount, wordsAux_single w hw hnws]

/-- Token counting is additive across a `' '.join`. -/
theorem tcount_joinSep_space :
    ∀ parts : List String, tcount (joinSep " " parts) = (parts.map tcount).sum := by
  intro parts
  induction parts with
  | nil => rfl
  | cons x rest ih =>
    cases rest with
    | nil => simp [joinSep]
    | cons y t =>
      have hdata : (x ++ " " ++ joinSep " " (y :: t)).data
          = x.data ++ ' ' :: (joinSep " " (y :: t)).data := by
        simp [String.data_append]
      have hstep : joinSep " " (x :: y :: t) = x ++ " " ++ joinSep " " (y :: t) := rfl
      rw [hstep, tcount_eq_wcount, hdata, wcount_append_ws ' ' rfl,
        ← tcount_eq_wcount x, ← tcount_eq_wcount, ih]
      simp

/-- Token counting is additive across a `'\n\n'.join`. -/
theorem tcount_joinSep_nn :
    ∀ parts : List String, tcount (joinSep "\n\n" parts) = (parts.map tcount).sum := by
  intro parts
  induction parts with
  | nil => rfl
  | cons x rest ih =>
    cases rest with
    | nil => simp [joinSep]
    | cons y t =>
      have hdata : (x ++ "\n\n" ++ joinSep "\n\n" (y :: t)).data
          = x.data ++ '\n' :: ('\n' :: (joinSep "\n\n" (y :: t)).data) := by
        simp [String.data_append]
      have hstep : joinSep "\n\n" (x :: y :: t) = x ++ "\n\n" ++ joinSep "\n\n" (y :: t) := rfl
      rw [hstep, tcount_eq_wcount, hdata, wcount_append_ws '\n' rfl,
        wcount_cons_ws '\n' rfl, ← tcount_eq_wcount x, ← tcount_eq_wcount, ih]
      simp

/-- Decoding a list of non-empty whitespace-free tokens and re-encoding gives
back the same number of tokens. -/
theorem tcount_decodeT (ts : List String)
    (h : ∀ t ∈ ts, t.data ≠ [] ∧ ∀ x ∈ t.data, isWS x = false) :
    tcount (decodeT ts) = ts.length := by
  induction ts with
  | nil => rfl
  | cons x rest ih =>
    cases rest with
    | nil =>
      obtain ⟨hne, hnws⟩ := h x (by simp)
      simp only [decodeT, joinSep, tcount_eq_wcount]
      simp [wcount_word x.data hne hnws]
    | cons y t =>
      have hdata : (x ++ " " ++ decodeT (y :: t)).data
          = x.data ++ ' ' :: (decodeT (y :: t)).data := by
        simp [String.data_append]
      obtain ⟨hne, hnws⟩ := h x (by simp)
      have ihr := ih (fun t ht => h t (List.mem_cons_of_mem _ ht))
      have hstep : decodeT (x :: y :: t) = x ++ " " ++ decodeT (y :: t) := rfl
      rw [hstep, tcount_eq_wcount, hdata, wcount_append_ws ' ' rfl,
        wcount_word x.data hne hnws, ← tcount_eq_wcount, ihr]
      simp only [List.length_cons]
      omega

/-- All tokens produced by `encodeT` are non-empty and whitespace-free. -/
theorem encodeT_tokens_wf (s : String) :
    ∀ t ∈ encodeT s, t.data ≠ [] ∧ ∀ x ∈ t.data, isWS x = false := by
  intro t ht
  simp only [encodeT, List.mem_map] at ht
  obtain ⟨l, hl, rfl⟩ := ht
  exact wordsAux_all_nonws s.data [] (by simp) l hl

/-! ### Overlap-text token facts -/

theorem tcount_empty : tcount "" = 0 := rfl

theorem lastN_length (k : Nat) (l : List String) (hk : k ≤ l.length) :
    (lastN k l).length = k := by
  simp only [lastN, List.length_drop]
  omega

theorem tcount_overlapText (ct : String) : tcount (overlapText ct) = tcount ct / 5 := by
  by_cases h : (encodeT ct).length / 5 > 0
  · have hwf : ∀ t ∈ lastN ((encodeT ct).length / 5) (encodeT ct),
        t.data ≠ [] ∧ ∀ x ∈ t.data, isWS x = false := by
      intro t ht
      exact encodeT_tokens_wf ct t (List.drop_subset _ _ ht)
    simp only [overlapText, if_pos h]
    rw [tcount_decodeT _ hwf, lastN_length _ _ (Nat.div_le_self _ _)]
    rfl
  · simp only [overlapText, if_neg h]
    have h0 : (encodeT ct).length / 5 = 0 := by omega
    have hc : tcount ct = (encodeT ct).length := rfl
    rw [tcount_empty, hc, h0]

theorem overlapText_empty (ct : String) (h : tcount ct / 5 = 0) :
    overlapText ct = "" := by
  have hc : tcount ct = (encodeT ct).length := rfl
  simp only [overlapText]
  rw [if_neg]
  omega

theorem overlapText_ne (ct : String) (h : tcount ct / 5 ≠ 0) :
    overlapText ct ≠ "" := by
  intro he
  have ht := tcount_overlapText ct
  rw [he, tcount_empty] at ht
  exact h ht.symm

/-! ### Budget invariants of the chunking loops -/

theorem stepGA_inv (level : ChunkLevel) (md : Option SectionMeta) (sep : String)
    (maxT B K : Nat) (piece : String) (chunks : List Chunk) (buf : List String)
    (cur : Nat)
    (hsep : ∀ parts, tcount (joinSep sep parts) = (parts.map tcount).sum)
    (hch : ∀ c ∈ chunks, tcount c.text ≤ maxT)
    (hsum : cur = (buf.map tcount).sum)
    (hbz : buf = [] → cur = 0)
    (hcur : cur ≤ B)
    (hB : B ≤ maxT)
    (hpc : tcount piece ≤ K)
    (hBK : B / 5 + K ≤ maxT) :
    (∀ c ∈ (stepGA level md sep maxT (chunks, buf, cur) piece).1,
        tcount c.text ≤ maxT) ∧
    (stepGA level md sep maxT (chunks, buf, cur) piece).2.2 =
      (((stepGA level md sep maxT (chunks, buf, cur) piece).2.1).map tcount).sum ∧
    (stepGA level md sep maxT (chunks, buf, cur) piece).2.2 ≤ maxT ∧
    (stepGA level md sep maxT (chunks, buf, cur) piece).2.1 ≠ [] := by
  have hK : K ≤ maxT := by omega
  simp only [stepGA]
  by_cases hg : cur + tcount piece > maxT ∧ buf ≠ []
  · simp only [if_pos hg]
    have hct : tcount (joinSep sep buf) = cur := by rw [hsep]; exact hsum.symm
    by_cases hov : overlapText (joinSep sep buf) ≠ ""
    · simp only [if_pos hov]
      refine ⟨?_, ?_, ?_, by simp⟩
      · intro c hc
        rcases List.mem_append.mp hc with h | h
        · exact hch c h
        · simp only [List.mem_singleton] at h
          subst h
          simp only [mkChunk, hct]
          omega
      · simp
      · have hov5 : tcount (overlapText (joinSep sep buf)) = cur / 5 := by
          rw [tcount_overlapText, hct]
        rw [hov5]
        have : cur / 5 ≤ B / 5 := Nat.div_le_div_right hcur
        omega
    · simp only [if_neg hov]
      refine ⟨?_, by simp, by simp; omega, by simp⟩
      intro c hc
      rcases List.mem_append.mp hc with h | h
      · exact hch c h
      · simp only [List.mem_singleton] at h
        subst h
        simp only [mkChunk, hct]
        omega
  · simp only [if_neg hg]
    refine ⟨hch, ?_, ?_, by simp⟩
    · simp [hsum]
    · push_neg at hg
      rcases Classical.em (buf = []) with hb | hb
      · have := hbz hb
        omega
      · have hle : cur + tcount piece ≤ maxT := by
          by_contra hlt
          exact hb (hg (by omega))
        omega

theorem emitTarget_inv (level : ChunkLevel) (md : Option SectionMeta) (sep : String)
    (maxT targetT : Nat) (chunks : List Chunk) (buf : List String) (cur : Nat)
    (hsep : ∀ parts, tcount (joinSep sep parts) = (parts.map tcount).sum)
    (hch : ∀ c ∈ chunks, tcount c.text ≤ maxT)
    (hsum : cur = (buf.map tcount).sum)
    (hbz : buf = [] → cur = 0)
    (hcur : cur ≤ maxT)
    (htm : maxT / 5 < targetT) :
    (∀ c ∈ (emitTarget level md sep targetT (chunks, buf, cur)).1,
        tcount c.text ≤ maxT) ∧
    (emitTarget level md sep targetT (chunks, buf, cur)).2.2 =
      (((emitTarget level md sep targetT (chunks, buf, cur)).2.1).map tcount).sum ∧
    (emitTarget level md sep targetT (chunks, buf, cur)).2.2 < targetT ∧
    ((emitTarget level md sep targetT (chunks, buf, cur)).2.1 = [] →
      (emitTarget level md sep targetT (chunks, buf, cur)).2.2 = 0) := by
  simp only [emitTarget]
  by_cases hge : cur ≥ targetT
  · simp only [if_pos hge]
    have hct : tcount (joinSep sep buf) = cur := by rw [hsep]; exact hsum.symm
    have hmem : ∀ c ∈ chunks ++ [mkChunk level (joinSep sep buf) chunks.length md],
        tcount c.text ≤ maxT := by
      intro c hc
      rcases List.mem_append.mp hc with h | h
      · exact hch c h
      · simp only [List.mem_singleton] at h
        subst h
        simp only [mkChunk, hct]
        omega
    have hov5 : tcount (overlapText (joinSep sep buf)) = cur / 5 := by
      rw [tcount_overlapText, hct]
    by_cases hov : overlapText (joinSep sep buf) ≠ ""
    · simp only [if_pos hov]
      refine ⟨hmem, by simp, ?_, by simp⟩
      rw [hov5]
      have : cur / 5 ≤ maxT / 5 := Nat.div_le_div_right hcur
      omega
    · simp only [if_neg hov]
      exact ⟨hmem, by simp, by omega, by simp⟩
  · simp only [if_neg hge]
    exact ⟨hch, hsum, by omega, hbz⟩

theorem finalizeChunks_budget (level : ChunkLevel) (md : Option SectionMeta)
    (sep : String) (maxT : Nat) (chunks : List Chunk) (buf : List String)
    (cur : Nat)
    (hsep : ∀ parts, tcount (joinSep sep parts) = (parts.map tcount).sum)
    (hch : ∀ c ∈ chunks, tcount c.text ≤ maxT)
    (hsum : cur = (buf.map tcount).sum)
    (hcur : cur ≤ maxT) :
    ∀ c ∈ finalizeChunks level md sep (chunks, buf, cur), tcount c.text ≤ maxT := by
  simp only [finalizeChunks]
  by_cases hb : buf ≠ []
  · simp only [if_pos hb]
    intro c hc
    rcases List.mem_append.mp hc with h | h
    · exact hch c h
    · simp only [List.mem_singleton] at h
      subst h
      simp only [mkChunk]
      rw [hsep]
      omega
  · simp only [if_neg hb]
    exact hch

theorem smallLoop_budget (md : Option SectionMeta) :
    ∀ (segs : List String) (chunks : List Chunk) (buf : List String) (cur : Nat),
      (∀ seg ∈ segs, tcount seg ≤ 160) →
      (∀ c ∈ chunks, tcount c.text ≤ 200) →
      cur = (buf.map tcount).sum →
      (buf = [] → cur = 0) →
      cur < 150 →
      ∀ c ∈ smallLoop md segs (chunks, buf, cur), tcount c.text ≤ 200 := by
  intro segs
  induction segs with
  | nil =>
    intro chunks buf cur _ hch hsum hbz hcur
    simp only [smallLoop]
    exact finalizeChunks_budget _ _ _ _ _ _ _ tcount_joinSep_space hch hsum (by omega)
  | cons seg rest ih =>
    intro chunks buf cur hsegs hch hsum hbz hcur
    simp only [smallLoop]
    have hstep := stepGA_inv .small md " " 200 149 160 seg chunks buf cur
      tcount_joinSep_space hch hsum hbz (by omega) (by omega)
      (hsegs seg (by simp)) (by norm_num)
    obtain ⟨h1, h2, h3, h4⟩ := hstep
    rcases hst : stepGA .small md " " 200 (chunks, buf, cur) seg with ⟨chunks1, buf1, cur1⟩
    rw [hst] at h1 h2 h3 h4
    have hemit := emitTarget_inv .small md " " 200 150 chunks1 buf1 cur1
      tcount_joinSep_space h1 h2 (fun hb => absurd hb h4) h3 (by norm_num)
    obtain ⟨e1, e2, e3, e4⟩ := hemit
    rcases het : emitTarget .small md " " 150 (chunks1, buf1, cur1) with ⟨chunks2, buf2, cur2⟩
    rw [het] at e1 e2 e3 e4
    have hT : targetTokensOf ChunkLevel.small = 150 := by decide
    have hM : maxTokensOf ChunkLevel.small = 200 := by decide
    rw [hT, hM, hst, het]
    exact ih chunks2 buf2 cur2 (fun s hs => hsegs s (by simp [hs])) e1 e2 e4 e3

theorem foldGA_inv (level : ChunkLevel) (md : Option SectionMeta) (maxT : Nat) :
    ∀ (pieces : List String) (chunks : List Chunk) (buf : List String) (cur : Nat),
      (∀ p ∈ pieces, tcount p ≤ maxT - maxT / 5) →
      (∀ c ∈ chunks, tcount c.text ≤ maxT) →
      cur = (buf.map tcount).sum →
      (buf = [] → cur = 0) →
      cur ≤ maxT →
      (∀ c ∈ (pieces.foldl (stepGA level md "\n\n" maxT) (chunks, buf, cur)).1,
          tcount c.text ≤ maxT) ∧
      (pieces.foldl (stepGA level md "\n\n" maxT) (chunks, buf, cur)).2.2 =
        (((pieces.foldl (stepGA level md "\n\n" maxT) (chunks, buf, cur)).2.1).map
          tcount).sum ∧
      (pieces.foldl (stepGA level md "\n\n" maxT) (chunks, buf, cur)).2.2 ≤ maxT ∧
      ((pieces.foldl (stepGA level md "\n\n" maxT) (chunks, buf, cur)).2.1 = [] →
        (pieces.foldl (stepGA level md "\n\n" maxT) (chunks, buf, cur)).2.2 = 0) := by
  intro pieces
  induction pieces with
  | nil =>
    intro chunks buf cur _ hch hsum hbz hcur
    exact ⟨hch, hsum, hcur, hbz⟩
  | cons p rest ih =>
    intro chunks buf cur hps hch hsum hbz hcur
    have hstep := stepGA_inv level md "\n\n" maxT maxT (maxT - maxT / 5) p
      chunks buf cur tcount_joinSep_nn hch hsum hbz hcur (le_refl _)
      (hps p (by simp)) (by omega)
    obtain ⟨h1, h2, h3, h4⟩ := hstep
    rcases hst : stepGA level md "\n\n" maxT (chunks, buf, cur) p with ⟨c1, b1, u1⟩
    rw [hst] at h1 h2 h3 h4
    simp only [List.foldl_cons, hst]
    exact ih c1 b1 u1 (fun s hs => hps s (by simp [hs])) h1 h2
      (fun hb => absurd hb h4) h3

theorem coarseLoop_budget (level : ChunkLevel) (md : Option SectionMeta)
    (innerSplit : String → List String)
    (htm : maxTokensOf level / 5 < targetTokensOf level)
    (htmax : targetTokensOf level ≤ maxTokensOf level)
    (harith : (targetTokensOf level - 1) / 5 +
      (maxTokensOf level - maxTokensOf level / 5) ≤ maxTokensOf level) :
    ∀ (units : List String) (chunks : List Chunk) (buf : List String) (cur : Nat),
      (∀ u ∈ units, tcount u ≤ maxTokensOf level - maxTokensOf level / 5 ∨
        (maxTokensOf level < tcount u ∧
          ∀ p ∈ innerSplit u, tcount p ≤ maxTokensOf level - maxTokensOf level / 5)) →
      (∀ c ∈ chunks, tcount c.text ≤ maxTokensOf level) →
      cur = (buf.map tcount).sum →
      (buf = [] → cur = 0) →
      cur < targetTokensOf level →
      ∀ c ∈ coarseLoop level md innerSplit units (chunks, buf, cur),
        tcount c.text ≤ maxTokensOf level := by
  intro units
  induction units with
  | nil =>
    intro chunks buf cur _ hch hsum hbz hcur
    simp only [coarseLoop]
    exact finalizeChunks_budget _ _ _ _ _ _ _ tcount_joinSep_nn hch hsum (by omega)
  | cons unit rest ih =>
    intro chunks buf cur hus hch hsum hbz hcur
    simp only [coarseLoop]
    have hbig :
        (∀ c ∈ (if tcount unit > maxTokensOf level then
            (innerSplit unit).foldl (stepGA level md "\n\n" (maxTokensOf level))
              (chunks, buf, cur)
          else stepGA level md "\n\n" (maxTokensOf level) (chunks, buf, cur) unit).1,
            tcount c.text ≤ maxTokensOf level) ∧
        (if tcount unit > maxTokensOf level then
            (innerSplit unit).foldl (stepGA level md "\n\n" (maxTokensOf level))
              (chunks, buf, cur)
          else stepGA level md "\n\n" (maxTokensOf level) (chunks, buf, cur) unit).2.2 =
          (((if tcount unit > maxTokensOf level then
            (innerSplit unit).foldl (stepGA level md "\n\n" (maxTokensOf level))
              (chunks, buf, cur)
          else stepGA level md "\n\n" (maxTokensOf level) (chunks, buf, cur) unit).2.1).map
            tcount).sum ∧
        (if tcount unit > maxTokensOf level then
            (innerSplit unit).foldl (stepGA level md "\n\n" (maxTokensOf level))
              (chunks, buf, cur)
          else stepGA level md "\n\n" (maxTokensOf level) (chunks, buf, cur) unit).2.2 ≤
          maxTokensOf level ∧
        ((if tcount unit > maxTokensOf level then
            (innerSplit unit).foldl (stepGA level md "\n\n" (maxTokensOf level))
              (chunks, buf, cur)
          else stepGA level md "\n\n" (maxTokensOf level) (chunks, buf, cur) unit).2.1 = [] →
          (if tcount unit > maxTokensOf level then
            (innerSplit unit).foldl (stepGA level md "\n\n" (maxTokensOf level))
              (chunks, buf, cur)
          else stepGA level md "\n\n" (maxTokensOf level) (chunks, buf, cur) unit).2.2 = 0) := by
      by_cases hsz : tcount unit > maxTokensOf level
      · simp only [if_pos hsz]
        have hpieces : ∀ p ∈ innerSplit unit,
            tcount p ≤ maxTokensOf level - maxTokensOf level / 5 := by
          rcases hus unit (by simp) with h | h
          · omega
          · exact h.2
        exact foldGA_inv level md (maxTokensOf level) (innerSplit unit) chunks buf cur
          hpieces hch hsum hbz (by omega)
      · simp only [if_neg hsz]
        have hu : tcount unit ≤ maxTokensOf level - maxTokensOf level / 5 := by
          rcases hus unit (by simp) with h | h
          · exact h
          · omega
        have := stepGA_inv level md "\n\n" (maxTokensOf level) (targetTokensOf level - 1)
          (maxTokensOf level - maxTokensOf level / 5) unit chunks buf cur
          tcount_joinSep_nn hch hsum hbz (by omega) (by omega) hu harith
        exact ⟨this.1, this.2.1, this.2.2.1, fun hb => absurd hb this.2.2.2⟩
    obtain ⟨h1, h2, h3, h4⟩ := hbig
    have hemit := emitTarget_inv level md "\n\n" (maxTokensOf level)
      (targetTokensOf level)
      (if tcount unit > maxTokensOf level then
          (innerSplit unit).foldl (stepGA level md "\n\n" (maxTokensOf level))
            (chunks, buf, cur)
        else stepGA level md "\n\n" (maxTokensOf level) (chunks, buf, cur) unit).1
      (if tcount unit > maxTokensOf level then
          (innerSplit unit).foldl (stepGA level md "\n\n" (maxTokensOf level))
            (chunks, buf, cur)
        else stepGA level md "\n\n" (maxTokensOf level) (chunks, buf, cur) unit).2.1
      (if tcount unit > maxTokensOf level then
          (innerSplit unit).foldl (stepGA level md "\n\n" (maxTokensOf level))
            (chunks, buf, cur)
        else stepGA level md "\n\n" (maxTokensOf level) (chunks, buf, cur) unit).2.2
      tcount_joinSep_nn h1 h2 h4 h3 htm
    exact ih _ _ _ (fun u hu => hus u (by simp [hu])) hemit.1 hemit.2.1
      hemit.2.2.2 hemit.2.2.1

theorem strAppend_assoc (a b c : String) : a ++ b ++ c = a ++ (b ++ c) := by
  apply String.ext
  simp [String.data_append]

theorem strEmpty_of_append (a b : String) (h : a ++ b = "") : a = "" := by
  apply String.ext
  have := congrArg String.data h
  simp only [String.data_append] at this
  rcases List.append_eq_nil.mp this with ⟨ha, _⟩
  simp [ha]

theorem joinSep_concat (sep : String) :
    ∀ (l : List String) (x : String), l ≠ [] →
      joinSep sep (l ++ [x]) = joinSep sep l ++ sep ++ x := by
  intro l
  induction l with
  | nil => intro x h; exact absurd rfl h
  | cons y t ih =>
    intro x _
    cases t with
    | nil => rfl
    | cons z t2 =>
      have hstep : joinSep sep ((y :: z :: t2) ++ [x])
          = y ++ sep ++ joinSep sep ((z :: t2) ++ [x]) := rfl
      rw [hstep, ih x (by simp)]
      rw [show joinSep sep (y :: z :: t2) = y ++ sep ++ joinSep sep (z :: t2) from rfl]
      rw [strAppend_assoc (y ++ sep), strAppend_assoc (y ++ sep)]

theorem stepGA_chain (level : ChunkLevel) (md : Option SectionMeta) (sep : String)
    (maxT : Nat) (piece : String) (chunks : List Chunk) (buf : List String)
    (cur : Nat)
    (hch : List.Chain' ovStep chunks)
    (hbuf : ∀ last ∈ chunks.getLast?, ∃ rest,
      joinSep sep buf = overlapText last.text ++ rest) :
    List.Chain' ovStep (stepGA level md sep maxT (chunks, buf, cur) piece).1 ∧
    (∀ last ∈ (stepGA level md sep maxT (chunks, buf, cur) piece).1.getLast?,
      ∃ rest, joinSep sep (stepGA level md sep maxT (chunks, buf, cur) piece).2.1
        = overlapText last.text ++ rest) := by
  simp only [stepGA]
  by_cases hg : cur + tcount piece > maxT ∧ buf ≠ []
  · simp only [if_pos hg]
    have hchain1 : List.Chain' ovStep
        (chunks ++ [mkChunk level (joinSep sep buf) chunks.length md]) := by
      rw [List.chain'_append]
      refine ⟨hch, List.chain'_singleton _, ?_⟩
      intro x hx y hy
      simp only [List.head?_cons, Option.mem_def, Option.some.injEq] at hy
      subst hy
      exact hbuf x hx
    have hlast : (chunks ++ [mkChunk level (joinSep sep buf) chunks.length md]).getLast?
        = some (mkChunk level (joinSep sep buf) chunks.length md) :=
      List.getLast?_concat _
    by_cases hov : overlapText (joinSep sep buf) ≠ ""
    · simp only [if_pos hov]
      refine ⟨hchain1, ?_⟩
      intro last hl
      rw [hlast] at hl
      simp only [Option.mem_def, Option.some.injEq] at hl
      subst hl
      refine ⟨sep ++ piece, ?_⟩
      rw [joinSep_concat sep [overlapText (joinSep sep buf)] piece (by simp)]
      simp only [mkChunk]
      rw [strAppend_assoc]
      rfl
    · simp only [if_neg hov]
      refine ⟨hchain1, ?_⟩
      intro last hl
      rw [hlast] at hl
      simp only [Option.mem_def, Option.some.injEq] at hl
      subst hl
      refine ⟨piece, ?_⟩
      simp only [mkChunk]
      push_neg at hov
      rw [show ([] : List String) ++ [piece] = [piece] from rfl, hov]
      rfl
  · simp only [if_neg hg]
    refine ⟨hch, ?_⟩
    intro last hl
    obtain ⟨rest, hrest⟩ := hbuf last hl
    by_cases hb : buf = []
    · subst hb
      have hov : overlapText last.text = "" :=
        strEmpty_of_append _ _ hrest.symm
      refine ⟨piece, ?_⟩
      rw [show ([] : List String) ++ [piece] = [piece] from rfl, hov]
      rfl
    · refine ⟨rest ++ sep ++ piece, ?_⟩
      rw [joinSep_concat sep buf piece hb, hrest]
      rw [strAppend_assoc, strAppend_assoc, strAppend_assoc]

theorem emitTarget_chain (level : ChunkLevel) (md : Option SectionMeta)
    (sep : String) (targetT : Nat) (chunks : List Chunk) (buf : List String)
    (cur : Nat)
    (hch : List.Chain' ovStep chunks)
    (hbuf : ∀ last ∈ chunks.getLast?, ∃ rest,
      joinSep sep buf = overlapText last.text ++ rest) :
    List.Chain' ovStep (emitTarget level md sep targetT (chunks, buf, cur)).1 ∧
    (∀ last ∈ (emitTarget level md sep targetT (chunks, buf, cur)).1.getLast?,
      ∃ rest, joinSep sep (emitTarget level md sep targetT (chunks, buf, cur)).2.1
        = overlapText last.text ++ rest) := by
  simp only [emitTarget]
  by_cases hge : cur ≥ targetT
  · simp only [if_pos hge]
    have hchain1 : List.Chain' ovStep
        (chunks ++ [mkChunk level (joinSep sep buf) chunks.length md]) := by
      rw [List.chain'_append]
      refine ⟨hch, List.chain'_singleton _, ?_⟩
      intro x hx y hy
      simp only [List.head?_cons, Option.mem_def, Option.some.injEq] at hy
      subst hy
      exact hbuf x hx
    have hlast : (chunks ++ [mkChunk level (joinSep sep buf) chunks.length md]).getLast?
        = some (mkChunk level (joinSep sep buf) chunks.length md) :=
      List.getLast?_concat _
    by_cases hov : overlapText (joinSep sep buf) ≠ ""
    · simp only [if_pos hov]
      refine ⟨hchain1, ?_⟩
      intro last hl
      rw [hlast] at hl
      simp only [Option.mem_def, Option.some.injEq] at hl
      subst hl
      exact ⟨"", by simp [mkChunk, joinSep]⟩
    · simp only [if_neg hov]
      refine ⟨hchain1, ?_⟩
      intro last hl
      rw [hlast] at hl
      simp only [Option.mem_def, Option.some.injEq] at hl
      subst hl
      push_neg at hov
      exact ⟨"", by simp [mkChunk, joinSep, hov]⟩
  · simp only [if_neg hge]
    exact ⟨hch, hbuf⟩

theorem finalizeChunks_chain (level : ChunkLevel) (md : Option SectionMeta)
    (sep : String) (chunks : List Chunk) (buf : List String) (cur : Nat)
    (hch : List.Chain' ovStep chunks)
    (hbuf : ∀ last ∈ chunks.getLast?, ∃ rest,
      joinSep sep buf = overlapText last.text ++ rest) :
    List.Chain' ovStep (finalizeChunks level md sep (chunks, buf, cur)) := by
  simp only [finalizeChunks]
  by_cases hb : buf ≠ []
  · simp only [if_pos hb]
    rw [List.chain'_append]
    refine ⟨hch, List.chain'_singleton _, ?_⟩
    intro x hx y hy
    simp only [List.head?_cons, Option.mem_def, Option.some.injEq] at hy
    subst hy
    exact hbuf x hx
  · simp only [if_neg hb]
    exact hch

theorem smallLoop_chain (md : Option SectionMeta) :
    ∀ (segs : List String) (chunks : List Chunk) (buf : List String) (cur : Nat),
      List.Chain' ovStep chunks →
      (∀ last ∈ chunks.getLast?, ∃ rest,
        joinSep " " buf = overlapText last.text ++ rest) →
      List.Chain' ovStep (smallLoop md segs (chunks, buf, cur)) := by
  intro segs
  induction segs with
  | nil =>
    intro chunks buf cur hch hbuf
    exact finalizeChunks_chain _ _ _ _ _ _ hch hbuf
  | cons seg rest ih =>
    intro chunks buf cur hch hbuf
    simp only [smallLoop]
    have hstep := stepGA_chain .small md " " (maxTokensOf .small) seg chunks buf cur
      hch hbuf
    have hemit := emitTarget_chain .small md " " (targetTokensOf .small)
      (stepGA .small md " " (maxTokensOf .small) (chunks, buf, cur) seg).1
      (stepGA .small md " " (maxTokensOf .small) (chunks, buf, cur) seg).2.1
      (stepGA .small md " " (maxTokensOf .small) (chunks, buf, cur) seg).2.2
      hstep.1 hstep.2
    exact ih _ _ _ hemit.1 hemit.2

theorem foldGA_chain (level : ChunkLevel) (md : Option SectionMeta) (maxT : Nat) :
    ∀ (pieces : List String) (chunks : List Chunk) (buf : List String) (cur : Nat),
      List.Chain' ovStep chunks →
      (∀ last ∈ chunks.getLast?, ∃ rest,
        joinSep "\n\n" buf = overlapText last.text ++ rest) →
      List.Chain' ovStep
        ((pieces.foldl (stepGA level md "\n\n" maxT) (chunks, buf, cur)).1) ∧
      (∀ last ∈ (pieces.foldl (stepGA level md "\n\n" maxT)
          (chunks, buf, cur)).1.getLast?,
        ∃ rest, joinSep "\n\n"
          (pieces.foldl (stepGA level md "\n\n" maxT) (chunks, buf, cur)).2.1
          = overlapText last.text ++ rest) := by
  intro pieces
  induction pieces with
  | nil =>
    intro chunks buf cur hch hbuf
    exact ⟨hch, hbuf⟩
  | cons p rest ih =>
    intro chunks buf cur hch hbuf
    simp only [List.foldl_cons]
    have hstep := stepGA_chain level md "\n\n" maxT p chunks buf cur hch hbuf
    exact ih _ _ _ hstep.1 hstep.2

theorem coarseLoop_chain (level : ChunkLevel) (md : Option SectionMeta)
    (innerSplit : String → List String) :
    ∀ (units : List String) (chunks : List Chunk) (buf : List String) (cur : Nat),
      List.Chain' ovStep chunks →
      (∀ last ∈ chunks.getLast?, ∃ rest,
        joinSep "\n\n" buf = overlapText last.text ++ rest) →
      List.Chain' ovStep (coarseLoop level md innerSplit units (chunks, buf, cur)) := by
  intro units
  induction units with
  | nil =>
    intro chunks buf cur hch hbuf
    exact finalizeChunks_chain _ _ _ _ _ _ hch hbuf
  | cons unit rest ih =>
    intro chunks buf cur hch hbuf
    simp only [coarseLoop]
    by_cases hsz : tcount unit > maxTokensOf level
    · simp only [if_pos hsz]
      have hfold := foldGA_chain level md (maxTokensOf level) (innerSplit unit)
        chunks buf cur hch hbuf
      have hemit := emitTarget_chain level md "\n\n" (targetTokensOf level)
        ((innerSplit unit).foldl (stepGA level md "\n\n" (maxTokensOf level))
          (chunks, buf, cur)).1
        ((innerSplit unit).foldl (stepGA level md "\n\n" (maxTokensOf level))
          (chunks, buf, cur)).2.1
        ((innerSplit unit).foldl (stepGA level md "\n\n" (maxTokensOf level))
          (chunks, buf, cur)).2.2
        hfold.1 hfold.2
      exact ih _ _ _ hemit.1 hemit.2
    · simp only [if_neg hsz]
      have hstep := stepGA_chain level md "\n\n" (maxTokensOf level) unit
        chunks buf cur hch hbuf
      have hemit := emitTarget_chain level md "\n\n" (targetTokensOf level)
        (stepGA level md "\n\n" (maxTokensOf level) (chunks, buf, cur) unit).1
        (stepGA level md "\n\n" (maxTokensOf level) (chunks, buf, cur) unit).2.1
        (stepGA level md "\n\n" (maxTokensOf level) (chunks, buf, cur) unit).2.2
        hstep.1 hstep.2
      exact ih _ _ _ hemit.1 hemit.2

/-- C1: the budget property fails as stated.  On `c1CexText` every segment
produced by the splitter has at most 200 tokens (so no chunk ever
force-absorbs an oversized segment), yet the small strategy emits a chunk
of 201 > 200 tokens: the guard finalizes the buffer, seeds the 20 %
overlap tail, and the next segment is appended on top of that tail before
the target check fires. -/
theorem c1_budget_counterexample :
    (∀ seg ∈ splitTextIntelligent (normalizeText c1CexText),
      tcount seg ≤ maxTokensOf ChunkLevel.small) ∧
    (smallChunkText c1CexText none).map Chunk.tokens = [149, 201, 40] ∧
    ∃ c ∈ smallChunkText c1CexText none,
      maxTokensOf ChunkLevel.small < tcount c.text := by
  refine ⟨by decide, by decide, ?_⟩
  decide

/-- C1 (amended): at every level, every emitted chunk fits the level's
`max_tokens` budget provided every atomic unit fed to the loop carries at
most 80 % of the budget (`max_tokens - max_tokens / 5` tokens): segments
for the small strategy; paragraphs for the medium strategy (or, for a
paragraph exceeding `max_tokens`, each of its sentences); sections for the
large strategy (or, for a section exceeding `max_tokens`, each of its
paragraphs).  Without such a bound the budget can be exceeded even when no
unit exceeds `max_tokens`, as `c1_budget_counterexample` shows. -/
theorem c1_budget_bounded (text : String) (md : Option SectionMeta) :
    ((∀ seg ∈ splitTextIntelligent (normalizeText text),
        tcount seg ≤ maxTokensOf ChunkLevel.small - maxTokensOf ChunkLevel.small / 5) →
      ∀ c ∈ smallChunkText text md, tcount c.text ≤ maxTokensOf ChunkLevel.small) ∧
    ((∀ para ∈ pysplit "\n\n" (normalizeText text),
        tcount para ≤ maxTokensOf ChunkLevel.medium - maxTokensOf ChunkLevel.medium / 5 ∨
          (maxTokensOf ChunkLevel.medium < tcount para ∧
            ∀ s ∈ sentencesRaw para,
              tcount s ≤ maxTokensOf ChunkLevel.medium - maxTokensOf ChunkLevel.medium / 5)) →
      ∀ c ∈ mediumChunkText text md, tcount c.text ≤ maxTokensOf ChunkLevel.medium) ∧
    ((∀ sec ∈ largeSections (normalizeText text),
        tcount sec ≤ maxTokensOf ChunkLevel.large - maxTokensOf ChunkLevel.large / 5 ∨
          (maxTokensOf ChunkLevel.large < tcount sec ∧
            ∀ p ∈ pysplit "\n\n" sec,
              tcount p ≤ maxTokensOf ChunkLevel.large - maxTokensOf ChunkLevel.large / 5)) →
      ∀ c ∈ largeChunkText text md, tcount c.text ≤ maxTokensOf ChunkLevel.large) := by
  refine ⟨?_, ?_, ?_⟩
  · intro hsegs
    have h160 : maxTokensOf ChunkLevel.small - maxTokensOf ChunkLevel.small / 5 = 160 := by
      decide
    rw [h160] at hsegs
    intro c hc
    have := smallLoop_budget md (splitTextIntelligent (normalizeText text)) [] [] 0
      hsegs (by simp) (by simp) (by simp) (by norm_num) c hc
    have hM : maxTokensOf ChunkLevel.small = 200 := by decide
    omega
  · intro hus
    exact coarseLoop_budget .medium md sentencesRaw (by decide) (by decide) (by decide)
      (pysplit "\n\n" (normalizeText text)) [] [] 0 hus (by simp) (by simp)
      (by simp) (by decide)
  · intro hus
    exact coarseLoop_budget .large md (pysplit "\n\n") (by decide) (by decide) (by decide)
      (largeSections (normalizeText text)) [] [] 0 hus (by simp) (by simp)
      (by simp) (by decide)

/-- Witness for `c1_budget_bounded`: on a short concrete text all three
hypotheses hold and all three budgets are met. -/
theorem c1_budget_bounded_witness :
    (∀ seg ∈ splitTextIntelligent (normalizeText "Hello world."),
      tcount seg ≤ maxTokensOf ChunkLevel.small - maxTokensOf ChunkLevel.small / 5) ∧
    (∀ c ∈ smallChunkText "Hello world." none,
      tcount c.text ≤ maxTokensOf ChunkLevel.small) ∧
    (∀ c ∈ mediumChunkText "Hello world." none,
      tcount c.text ≤ maxTokensOf ChunkLevel.medium) ∧
    (∀ c ∈ largeChunkText "Hello world." none,
      tcount c.text ≤ maxTokensOf ChunkLevel.large) :=
  ⟨by decide,
   (c1_budget_bounded "Hello world." none).1 (by decide),
   (c1_budget_bounded "Hello world." none).2.1 (by decide),
   (c1_budget_bounded "Hello world." none).2.2 (by decide)⟩

/-- C2: the overlap property fails as stated with the ceiling.  On
`c2CexText` the first small chunk has 151 tokens; the last ⌈20 %⌉ = 31
tokens decoded are not a prefix of the second chunk, because the code
seeds `int(len * 0.2)` = 30 tokens (floor). -/
theorem c2_overlap_ceil_counterexample :
    (smallChunkText c2CexText none).length = 2 ∧
    tcount ((smallChunkText c2CexText none).headD dfltChunk).text = 151 ∧
    ¬ ∃ rest : String,
      ((smallChunkText c2CexText none).getD 1 dfltChunk).text =
        decodeT (lastN
          ((tcount ((smallChunkText c2CexText none).headD dfltChunk).text + 4) / 5)
          (encodeT ((smallChunkText c2CexText none).headD dfltChunk).text)) ++ rest := by
  refine ⟨by decide, by decide, ?_⟩
  rintro ⟨rest, h⟩
  have htrue : (decodeT (lastN
      ((tcount ((smallChunkText c2CexText none).headD dfltChunk).text + 4) / 5)
      (encodeT ((smallChunkText c2CexText none).headD dfltChunk).text))).data.isPrefixOf
        (((smallChunkText c2CexText none).getD 1 dfltChunk).text).data = true := by
    rw [h]
    exact List.isPrefixOf_iff_prefix.mpr ⟨rest.data, by rw [String.data_append]⟩
  have hfalse : (decodeT (lastN
      ((tcount ((smallChunkText c2CexText none).headD dfltChunk).text + 4) / 5)
      (encodeT ((smallChunkText c2CexText none).headD dfltChunk).text))).data.isPrefixOf
        (((smallChunkText c2CexText none).getD 1 dfltChunk).text).data = false := by
    decide
  rw [htrue] at hfalse
  simp at hfalse

/-- C2 (amended): at every level, each chunk's text begins with the decoded
overlap tail of its predecessor, where the tail is the last
`int(len(tokens) * 0.2)` tokens — the floor of 20 %, which is empty for
chunks of fewer than 5 tokens (then the next chunk is simply not seeded
and the property holds with the empty prefix). -/
theorem c2_overlap_seeding (text : String) (md : Option SectionMeta) :
    List.Chain' ovStep (smallChunkText text md) ∧
    List.Chain' ovStep (mediumChunkText text md) ∧
    List.Chain' ovStep (largeChunkText text md) := by
  refine ⟨?_, ?_, ?_⟩
  · exact smallLoop_chain md _ [] [] 0 List.chain'_nil (by intro last hl; simp at hl)
  · exact coarseLoop_chain .medium md sentencesRaw _ [] [] 0 List.chain'_nil
      (by intro last hl; simp at hl)
  · exact coarseLoop_chain .large md (pysplit "\n\n") _ [] [] 0 List.chain'_nil
      (by intro last hl; simp at hl)

/-! ### Skipping whitespace-only sections (`chunk_document`) -/

theorem chunkSectionLoop_skip (documentId claimId : String) (s : SectionData)
    (hs : pystrip s.text = "") :
    ∀ (pre : List SectionData) (post : List SectionData) (idx : Nat)
      (acc : HierStructure),
      chunkSectionLoop documentId claimId (pre ++ s :: post) idx acc =
        chunkSectionLoop documentId claimId (pre ++ post) idx acc := by
  intro pre
  induction pre with
  | nil =>
    intro post idx acc
    simp only [List.nil_append, chunkSectionLoop, if_pos hs]
  | cons sd pre ih =>
    intro post idx acc
    simp only [List.cons_append, chunkSectionLoop]
    by_cases h : pystrip sd.text = ""
    · simp only [if_pos h]
      exact ih post idx acc
    · simp only [if_neg h]
      exact ih post _ _

/-- C9: a whitespace-only section contributes nothing: chunking a document
equals chunking the document with that section removed (no chunks at any
level, no `sections` entry, no counter increment, no error — the loop is
total), and a document whose only section is whitespace-only yields the
empty structure. -/
theorem c9_whitespace_section_skipped (txt : String)
    (docmd : List (String × String)) (pre post : List SectionData)
    (s : SectionData) (documentId claimId : String)
    (hs : pystrip s.text = "") :
    (pre ++ post ≠ [] →
      chunkDocument ⟨txt, pre ++ s :: post, docmd⟩ documentId claimId =
        chunkDocument ⟨txt, pre ++ post, docmd⟩ documentId claimId) ∧
    chunkDocument ⟨txt, [s], docmd⟩ documentId claimId =
      { claimId := claimId, documentId := documentId, sections := [],
        small := [], medium := [], large := [], metadata := docmd } := by
  constructor
  · intro hne
    simp only [chunkDocument]
    rw [if_pos (by simp), if_pos hne]
    exact chunkSectionLoop_skip documentId claimId s hs pre post 0 _
  · simp only [chunkDocument]
    rw [if_pos (by simp)]
    simp only [chunkSectionLoop, if_pos hs]

/-- Witness for `c9_whitespace_section_skipped` at a concrete document. -/
theorem c9_whitespace_section_skipped_witness :
    pystrip "  \n " = "" ∧
    chunkDocument
        ⟨"", [{ text := "Hello." }, { text := "  \n " }], []⟩ "doc_1" "claim_1" =
      chunkDocument ⟨"", [{ text := "Hello." }], []⟩ "doc_1" "claim_1" :=
  ⟨by decide,
   (c9_whitespace_section_skipped "" [] [{ text := "Hello." }] []
     { text := "  \n " } "doc_1" "claim_1" (by decide)).1 (by simp)⟩

/-! ### Auto-merge groups stay inside one section -/

theorem takeGroup_sec (curSec : Option String) :
    ∀ (l : List RRes) (p : Int), ∀ x ∈ (takeGroup curSec p l).1,
      x.metadata.sectionId = curSec := by
  intro l
  induction l with
  | nil => intro p x hx; simp [takeGroup] at hx
  | cons n rest ih =>
    intro p x hx
    simp only [takeGroup] at hx
    by_cases h : posOf n - p ≤ 1 ∧ n.metadata.sectionId = curSec
    · simp only [if_pos h] at hx
      rcases List.mem_cons.mp hx with hx | hx
      · subst hx; exact h.2
      · exact ih (posOf n) x hx
    · simp only [if_neg h] at hx
      simp at hx

theorem mem_mergeGroupsFuel_sec :
    ∀ (fuel : Nat) (l : List RRes) (g : List RRes), g ∈ mergeGroupsFuel fuel l →
      ∀ a ∈ g, ∀ b ∈ g, a.metadata.sectionId = b.metadata.sectionId := by
  intro fuel
  induction fuel with
  | zero =>
    intro l g hg
    cases l <;> simp [mergeGroupsFuel] at hg
  | succ fuel ih =>
    intro l g hg
    cases l with
    | nil => simp [mergeGroupsFuel] at hg
    | cons c rest =>
      simp only [mergeGroupsFuel, List.mem_cons] at hg
      rcases hg with hg | hg
      · subst hg
        intro a ha b hb
        have hmem : ∀ x ∈ c :: (takeGroup c.metadata.sectionId (posOf c) rest).1,
            x.metadata.sectionId = c.metadata.sectionId := by
          intro x hx
          rcases List.mem_cons.mp hx with hx | hx
          · subst hx; rfl
          · exact takeGroup_sec _ _ _ x hx
        rw [hmem a ha, hmem b hb]
      · exact ih _ g hg

/-- C3: every merge group formed by the Auto-Merge Engine — grouping by
`section_id`, sorting by `position_index`, then scanning for adjacency —
consists of candidates with one and the same metadata `section_id`; merged
results never combine candidates from different sections. -/
theorem c3_merge_groups_single_section (chunks : List RRes) (g : List RRes)
    (hg : g ∈ (groupBySection chunks).flatMap
      (fun p => mergeGroups (List.insertionSort byPosAsc p.2))) :
    ∀ a ∈ g, ∀ b ∈ g, a.metadata.sectionId = b.metadata.sectionId := by
  rcases List.mem_flatMap.mp hg with ⟨p, _, hgp⟩
  exact mem_mergeGroupsFuel_sec _ _ g hgp

theorem c3_merge_groups_single_section_witness :
    ([c3w1, c3w2] ∈ (groupBySection [c3w1, c3w2]).flatMap
      (fun p => mergeGroups (List.insertionSort byPosAsc p.2))) ∧
    ∀ a ∈ [c3w1, c3w2], ∀ b ∈ [c3w1, c3w2],
      a.metadata.sectionId = b.metadata.sectionId :=
  ⟨by decide, c3_merge_groups_single_section [c3w1, c3w2] [c3w1, c3w2] (by decide)⟩

/-- C4: a merge group of size 1 passes through unchanged while a group of
size ≥ 2 becomes exactly one merged result; the merged result's score is
the arithmetic average of the absorbed scores, its `merged_count` is the
group size, its metadata is copied from the first (lowest-position)
absorbed candidate, and its text joins the absorbed texts in position
order with a blank-line separator; in particular three `section_1`
candidates at positions 0, 1, 2 with scores 0.9, 0.4, 0.95 merge into one
result with `merged_count = 3` and score `(0.9 + 0.4 + 0.95) / 3`. -/
theorem c4_merge_group_results :
    (∀ (l : List RRes) (g : List RRes), g ∈ mergeGroups l →
      (g.length = 1 → g.headD default ∈ mergeAdjacentInSection l) ∧
      (1 < g.length →
        createMergedChunk g ((g.map RRes.score).sum) ∈ mergeAdjacentInSection l)) ∧
    (∀ (g : List RRes) (tot : ℚ), g ≠ [] →
      (createMergedChunk g tot).score = tot / g.length ∧
      (createMergedChunk g tot).mergedCount = some g.length ∧
      (createMergedChunk g tot).metadata = (g.headD default).metadata ∧
      (createMergedChunk g tot).text =
        joinSep "\n\n" ((g.map RRes.text).filter (fun t => t ≠ ""))) ∧
    mergeChunks [sc1, sc2, sc3] none = [scMerged] := by
  refine ⟨?_, ?_, ?_⟩
  · intro l g hg
    constructor
    · intro h1
      have : (fun g => if 1 < g.length then
          createMergedChunk g ((g.map RRes.score).sum) else g.headD default) g
          ∈ mergeAdjacentInSection l := List.mem_map_of_mem _ hg
      simpa [h1] using this
    · intro h1
      have : (fun g => if 1 < g.length then
          createMergedChunk g ((g.map RRes.score).sum) else g.headD default) g
          ∈ mergeAdjacentInSection l := List.mem_map_of_mem _ hg
      simpa [if_pos h1] using this
  · intro g tot hg
    refine ⟨?_, rfl, rfl, rfl⟩
    simp [createMergedChunk, hg]
  · simp [mergeChunks, groupBySection, addToGroups, secKeyOf, posOf,
      mergeAdjacentInSection, mergeGroups, mergeGroupsFuel, takeGroup,
      createMergedChunk, List.insertionSort, List.orderedInsert, byPosAsc,
      byScoreDesc, keyDesc, sc1, sc2, sc3, scMerged]
    norm_num
    simp [joinSep]

theorem c4_merge_group_results_witness :
    c4w1 ∈ mergeAdjacentInSection [c4w1] ∧
    (createMergedChunk [c4w1, c4w2] 1).mergedCount = some 2 :=
  ⟨by simpa using (c4_merge_group_results.1 [c4w1] [c4w1] (by decide)).1 (by decide),
   ((c4_merge_group_results.2.1 [c4w1, c4w2] 1 (by decide)).2.1).trans (by decide)⟩

/-- C10: candidates lacking `position_index` are treated as position 0 for
sorting and adjacency, so two same-section candidates both lacking it are
adjacent (difference 0 ≤ 1) and merge into a single result. -/
theorem c10_missing_position_merges (a b : RRes)
    (ha : a.metadata.positionIndex = none)
    (hb : b.metadata.positionIndex = none)
    (hsec : a.metadata.sectionId = b.metadata.sectionId) :
    posOf a = 0 ∧ posOf b = 0 ∧
    mergeChunks [a, b] none =
      [createMergedChunk [a, b] (([a, b].map RRes.score).sum)] := by
  refine ⟨by simp [posOf, ha], by simp [posOf, hb], ?_⟩
  simp [mergeChunks, groupBySection, addToGroups, secKeyOf, hsec, posOf, ha, hb,
    mergeAdjacentInSection, mergeGroups, mergeGroupsFuel, takeGroup,
    List.insertionSort, List.orderedInsert, byPosAsc, byScoreDesc, keyDesc]

theorem c10_missing_position_merges_witness :
    mergeChunks [c10w1, c10w2] none =
      [createMergedChunk [c10w1, c10w2] (([c10w1, c10w2].map RRes.score).sum)] :=
  (c10_missing_position_merges c10w1 c10w2 rfl rfl rfl).2.2

/-! ### Stable-sort facts for the rerank passes -/

theorem filter_orderedInsert_key (f : RRes → ℚ) (q : ℚ) (x : RRes) :
    ∀ l : List RRes, List.Sorted (keyDesc f) l →
      (List.orderedInsert (keyDesc f) x l).filter (fun r => decide (f r = q)) =
        if f x = q then x :: l.filter (fun r => decide (f r = q))
        else l.filter (fun r => decide (f r = q)) := by
  intro l
  induction l with
  | nil =>
    intro _
    by_cases h : f x = q <;> simp [List.orderedInsert, h]
  | cons y ys ih =>
    intro hsorted
    simp only [List.orderedInsert]
    by_cases hxy : keyDesc f x y
    · rw [if_pos hxy]
      by_cases h : f x = q <;> simp [h]
    · rw [if_neg hxy]
      have hlt : f x < f y := lt_of_not_le hxy
      have hys := ih hsorted.of_cons
      by_cases h : f x = q
      · have hyq : ¬ f y = q := by
          intro hq
          rw [h] at hlt
          rw [hq] at hlt
          exact lt_irrefl _ hlt
        simp only [List.filter_cons, decide_eq_true_eq]
        rw [if_pos h] at hys
        simp [hyq, hys, h]
      · simp only [List.filter_cons, decide_eq_true_eq]
        rw [if_neg h] at hys
        by_cases hyq : f y = q <;> simp [hyq, hys, h]

theorem filter_insertionSort_key (f : RRes → ℚ) (q : ℚ) :
    ∀ l : List RRes,
      (List.insertionSort (keyDesc f) l).filter (fun r => decide (f r = q)) =
        l.filter (fun r => decide (f r = q)) := by
  intro l
  induction l with
  | nil => rfl
  | cons a l ih =>
    simp only [List.insertionSort]
    rw [filter_orderedInsert_key f q a _ (List.sorted_insertionSort _ l)]
    by_cases h : f a = q
    · simp [h, ih]
    · simp [h, ih]

theorem insertionSort_head_max (f : RRes → ℚ) (l : List RRes) (x : RRes)
    (hx : x ∈ l) (hmax : ∀ y ∈ l, y = x ∨ f y < f x) :
    (List.insertionSort (keyDesc f) l).head? = some x := by
  have hperm := List.perm_insertionSort (keyDesc f) l
  have hsorted := List.sorted_insertionSort (keyDesc f) l
  rcases hout : List.insertionSort (keyDesc f) l with _ | ⟨h, t⟩
  · rw [hout] at hperm
    exact absurd (hperm.mem_iff.mpr hx) (by simp)
  · rw [hout] at hperm hsorted
    have hhl : h ∈ l := hperm.mem_iff.mp (by simp)
    rcases hmax h hhl with he | hlt
    · simp [he]
    · have hxht : x ∈ h :: t := hperm.symm.mem_iff.mp hx
      rcases List.mem_cons.mp hxht with he | hxt
      · simp [he]
      · have := List.rel_of_sorted_cons hsorted x hxt
        exact absurd (lt_of_lt_of_le hlt this) (lt_irrefl _)

theorem take_head? {α : Type} (k : Nat) (l : List α) (hk : 1 ≤ k) :
    (l.take k).head? = l.head? := by
  cases k with
  | zero => omega
  | succ n => cases l <;> simp

/-- C5: the pass does not use the plain concatenation the claim describes.
On the query `"at 1:23"` the single extracted token `"1:23"` is a
substring of the claim's concatenation `"1:2" ++ "3"` but not of the
code's space-separated `"1:2 3"`, so the assigned score is the base score,
not base + 1. -/
theorem c5_concat_counterexample :
    extractTimeTokens "at 1:23" = ["1:23"] ∧
    claimTimeMatchCount (extractTimeTokens "at 1:23") c5CexRes = 1 ∧
    timeMatchCountOf (extractTimeTokens "at 1:23") c5CexRes = 0 ∧
    ((rerankByTime "at 1:23" [c5CexRes] none).getD 0 default).timeRerankedScore =
      some (0 : ℚ) ∧
    c5CexRes.score +
      (claimTimeMatchCount (extractTimeTokens "at 1:23") c5CexRes : ℚ) = 1 ∧
    some (0 : ℚ) ≠ some (1 : ℚ) := by
  refine ⟨by decide, by decide, by decide, ?_, ?_, by norm_num⟩
  · have htok : extractTimeTokens "at 1:23" = ["1:23"] := by decide
    have hcnt : timeMatchCountOf ["1:23"] c5CexRes = 0 := by decide
    have hsc : c5CexRes.score = 0 := rfl
    simp [rerankByTime, htok, hcnt, hsc, List.insertionSort]
  · have : claimTimeMatchCount (extractTimeTokens "at 1:23") c5CexRes = 1 := by decide
    rw [this]
    simp [c5CexRes]

/-- C5 (amended): with at least one extracted time/date token, the pass
annotates every candidate with
`adjusted = base_score + 1.0 × (number of tokens occurring in the
candidate's text and `chunk_text` joined by a single space)` and returns a
permutation of the annotated candidates that is sorted by descending
adjusted score, with candidates of equal adjusted score kept in their
original relative order. -/
theorem c5_time_rerank_formula (query : String) (results : List RRes)
    (htok : extractTimeTokens query ≠ []) (hres : results ≠ []) :
    (rerankByTime query results none).Perm
      (results.map (fun r =>
        { r with
          timeMatchCount := some (timeMatchCountOf (extractTimeTokens query) r),
          timeRerankedScore :=
            some (r.score + (timeMatchCountOf (extractTimeTokens query) r : ℚ)) })) ∧
    List.Sorted (keyDesc timeKeyOf) (rerankByTime query results none) ∧
    (∀ q' : ℚ,
      (rerankByTime query results none).filter (fun r => decide (timeKeyOf r = q')) =
        (results.map (fun r =>
          { r with
            timeMatchCount := some (timeMatchCountOf (extractTimeTokens query) r),
            timeRerankedScore :=
              some (r.score + (timeMatchCountOf (extractTimeTokens query) r : ℚ)) })).filter
          (fun r => decide (timeKeyOf r = q'))) ∧
    (∀ r ∈ rerankByTime query results none, ∃ src ∈ results,
      r = { src with
        timeMatchCount := some (timeMatchCountOf (extractTimeTokens query) src),
        timeRerankedScore :=
          some (src.score + (timeMatchCountOf (extractTimeTokens query) src : ℚ)) }) := by
  have hre : rerankByTime query results none =
      List.insertionSort (keyDesc timeKeyOf)
        (results.map (fun r =>
          { r with
            timeMatchCount := some (timeMatchCountOf (extractTimeTokens query) r),
            timeRerankedScore :=
              some (r.score + (timeMatchCountOf (extractTimeTokens query) r : ℚ)) })) := by
    simp only [rerankByTime, if_neg hres]
    rw [if_neg htok]
  refine ⟨?_, ?_, ?_, ?_⟩
  · rw [hre]
    exact List.perm_insertionSort _ _
  · rw [hre]
    exact List.sorted_insertionSort _ _
  · intro q'
    rw [hre]
    exact filter_insertionSort_key timeKeyOf q' _
  · intro r hr
    rw [hre] at hr
    have := (List.perm_insertionSort (keyDesc timeKeyOf) _).mem_iff.mp hr
    rcases List.mem_map.mp this with ⟨src, hsrc, heq⟩
    exact ⟨src, hsrc, heq.symm⟩

/-- Witness for `c5_time_rerank_formula` on a concrete query and candidate. -/
theorem c5_time_rerank_formula_witness :
    extractTimeTokens "crash at 08:20:05" ≠ [] ∧
    ([c5CexRes] : List RRes) ≠ [] ∧
    (rerankByTime "crash at 08:20:05" [c5CexRes] none).Perm
      ([c5CexRes].map (fun r =>
        { r with
          timeMatchCount :=
            some (timeMatchCountOf (extractTimeTokens "crash at 08:20:05") r),
          timeRerankedScore :=
            some (r.score +
              (timeMatchCountOf (extractTimeTokens "crash at 08:20:05") r : ℚ)) })) :=
  ⟨by decide, by decide,
   (c5_time_rerank_formula "crash at 08:20:05" [c5CexRes] (by decide) (by decide)).1⟩

/-- C6: the scenario fails as stated.  The query
`"What time did the collision occur on March 3rd?"` matches neither the
`HH:MM(:SS)` pattern nor the `DD Month YYYY` pattern, so no time tokens
are extracted and the time-rerank pass returns the candidates unchanged;
the candidate containing `08:20:05` / `3 March 2025` is not promoted and
does not outrank a higher-scored competitor. -/
theorem c6_march3rd_counterexample :
    extractTimeTokens c6Query = [] ∧
    strOccursIn "08:20:05" c6Special.text = true ∧
    strOccursIn "3 March 2025" (c6Special.metadata.chunkText.getD "") = true ∧
    rerankByTime c6Query [c6Other, c6Special] none = [c6Other, c6Special] ∧
    c6Special.score < c6Other.score := by
  refine ⟨by decide, by decide, by decide, ?_, ?_⟩
  · have htok : extractTimeTokens c6Query = [] := by decide
    simp [rerankByTime, htok]
  · have h1 : c6Special.score = 0 := rfl
    have h2 : c6Other.score = 1 := rfl
    rw [h1, h2]
    norm_num

/-- C6 (amended): for the query
`"What time did the collision occur on 3 March 2025?"` (which the date
pattern does match), if exactly one candidate's space-joined text and
`chunk_text` contain the extracted token `"3 March 2025"` and every other
candidate's base score is within 1.0 of the matching candidate's, then
after the time-rerank pass the matching candidate's adjusted score
strictly exceeds every other candidate's and it is first after
truncation to any `top_k ≥ 1`. -/
theorem c6_march3rd_amended (pre post : List RRes) (special : RRes) (k : Nat)
    (hk : 1 ≤ k)
    (hsp : strOccursIn "3 March 2025" (combinedTextOf special) = true)
    (hothers : ∀ r ∈ pre ++ post,
      strOccursIn "3 March 2025" (combinedTextOf r) = false)
    (hscores : ∀ r ∈ pre ++ post, r.score < special.score + 1) :
    ((rerankByTime c6AmendedQuery (pre ++ special :: post) none).take k).head? =
      some { special with
        timeMatchCount := some 1
        timeRerankedScore := some (special.score + 1) } ∧
    (∀ r ∈ pre ++ post,
      r.score + (timeMatchCountOf (extractTimeTokens c6AmendedQuery) r : ℚ) <
        special.score + 1) := by
  have htoks : extractTimeTokens c6AmendedQuery = ["3 March 2025"] := by decide
  have hcnt_sp : timeMatchCountOf (extractTimeTokens c6AmendedQuery) special = 1 := by
    simp [timeMatchCountOf, htoks, List.countP_cons, hsp]
  have hcnt_o : ∀ r ∈ pre ++ post,
      timeMatchCountOf (extractTimeTokens c6AmendedQuery) r = 0 := by
    intro r hr
    simp [timeMatchCountOf, htoks, List.countP_cons, hothers r hr]
  have hstrict : ∀ r ∈ pre ++ post,
      r.score + (timeMatchCountOf (extractTimeTokens c6AmendedQuery) r : ℚ) <
        special.score + 1 := by
    intro r hr
    rw [hcnt_o r hr]
    push_cast
    simpa using hscores r hr
  refine ⟨?_, hstrict⟩
  have hres : pre ++ special :: post ≠ [] := by simp
  have hre : rerankByTime c6AmendedQuery (pre ++ special :: post) none =
      List.insertionSort (keyDesc timeKeyOf)
        ((pre ++ special :: post).map (fun r =>
          { r with
            timeMatchCount :=
              some (timeMatchCountOf (extractTimeTokens c6AmendedQuery) r),
            timeRerankedScore :=
              some (r.score +
                (timeMatchCountOf (extractTimeTokens c6AmendedQuery) r : ℚ)) })) := by
    simp only [rerankByTime, if_neg hres]
    rw [if_neg (by rw [htoks]; simp)]
  rw [hre, take_head? _ _ hk]
  have hannot : ({ special with
      timeMatchCount := some 1
      timeRerankedScore := some (special.score + 1) } : RRes) =
      { special with
        timeMatchCount :=
          some (timeMatchCountOf (extractTimeTokens c6AmendedQuery) special),
        timeRerankedScore :=
          some (special.score +
            (timeMatchCountOf (extractTimeTokens c6AmendedQuery) special : ℚ)) } := by
    rw [hcnt_sp]
    norm_num
  rw [hannot]
  apply insertionSort_head_max
  · exact List.mem_map_of_mem _ (by simp)
  · intro y hy
    rcases List.mem_map.mp hy with ⟨src, hsrc, heq⟩
    rcases List.mem_append.mp hsrc with hsrc | hsrc
    · right
      subst heq
      have h0 := hcnt_o src (List.mem_append_left _ hsrc)
      have hlt := hscores src (List.mem_append_left _ hsrc)
      simp only [timeKeyOf, Option.getD_some, h0, hcnt_sp]
      push_cast
      simpa using hlt
    · rcases List.mem_cons.mp hsrc with hsrc | hsrc
      · left
        subst heq
        rw [hsrc, hcnt_sp]
      · right
        subst heq
        have h0 := hcnt_o src (List.mem_append_right _ hsrc)
        have hlt := hscores src (List.mem_append_right _ hsrc)
        simp only [timeKeyOf, Option.getD_some, h0, hcnt_sp]
        push_cast
        simpa using hlt

theorem c6_march3rd_amended_witness :
    strOccursIn "3 March 2025" (combinedTextOf c6Special) = true ∧
    (∀ r ∈ [c6wOther], strOccursIn "3 March 2025" (combinedTextOf r) = false) ∧
    (∀ r ∈ [c6wOther], r.score < c6Special.score + 1) ∧
    ((rerankByTime c6AmendedQuery ([c6wOther] ++ c6Special :: []) none).take 1).head? =
      some { c6Special with
        timeMatchCount := some 1
        timeRerankedScore := some (c6Special.score + 1) } := by
  have hsc : ∀ r ∈ [c6wOther], r.score < c6Special.score + 1 := by
    intro r hr
    simp only [List.mem_singleton] at hr
    subst hr
    have h1 : c6Special.score = 0 := rfl
    have h2 : c6wOther.score = 0 := rfl
    rw [h1, h2]
    norm_num
  exact ⟨by decide, by decide, hsc,
    (c6_march3rd_amended [c6wOther] [] c6Special 1 (by norm_num) (by decide)
      (by decide) hsc).1⟩

/-! ### C7: the summary retriever's section narrowing -/

theorem assocGet_assocSet (k v : String) :
    ∀ w : WhereClause, assocGet k (assocSet k v w) = some v := by
  intro w
  induction w with
  | nil => simp [assocSet, assocGet]
  | cons p rest ih =>
    simp only [assocSet]
    by_cases h : p.1 = k
    · simp [h, assocGet]
    · simp only [if_neg h, assocGet]
      exact ih

/-- C7: with section reranking on and exactly one referenced section, the
retriever adds the equality filter but does NOT skip the boost-based
rerank: the pass still runs on the returned candidates.  With a store
returning a non-matching hit first and a `section_2` hit second (equal
distances), the rerank promotes the `section_2` hit to the front, whereas
the rerank-free pipeline the claim describes would keep store order. -/
theorem c7_filter_counterexample :
    extractSectionIds c7Query = ["section_2"] ∧
    summaryWhereClause c7Query [] true = [("section_id", "section_2")] ∧
    (summaryRetrieve c7Store c7Query 2 [] true).map FRes.id = ["b", "a"] ∧
    (formatResults
      (((c7Store (summaryWhereClause c7Query [] true)
        (summaryNCandidates 2 true (summaryWhereClause c7Query [] true))).map
          formatHit).take 2)).map FRes.id = ["a", "b"] := by
  have hext : extractSectionIds c7Query = ["section_2"] := by decide
  refine ⟨hext, by decide, ?_, by decide⟩
  have hA : formatHit c7HitA = { id := "a", text := "alpha text", score := 1 } := by
    simp [formatHit, c7HitA]
  have hB : formatHit c7HitB =
      { id := "b", text := "beta text",
        metadata := { sectionId := some "section_2" }, score := 1 } := by
    simp [formatHit, c7HitB]
  simp [summaryRetrieve, summaryWhereClause, summaryNCandidates, hext, c7Store,
    hA, hB, rerankBySection, sectionMatchCountOf, resSectionId, pyOrStr,
    sectionKeyOf, List.insertionSort, List.orderedInsert, keyDesc,
    formatResults, assocGet, assocSet, truthyOpt]
  norm_num

/-- C7 (amended): with section reranking enabled, a query referencing
exactly one section narrows the vector-store query with an equality filter
on that section (and, since the filter is set, the candidate pool is not
widened), but the boost-based rerank pass is still applied to the returned
candidates; a query referencing several sections leaves the filters
untouched, widens the pool fourfold, and applies the boost-based rerank. -/
theorem c7_section_narrowing (store : WhereClause → Nat → List RawHit)
    (q : String) (topK : Nat) (filters : WhereClause) :
    (∀ sid : String, extractSectionIds q = [sid] →
      summaryWhereClause q filters true = assocSet "section_id" sid filters ∧
      (sid ≠ "" →
        summaryNCandidates topK true (assocSet "section_id" sid filters) = topK) ∧
      summaryRetrieve store q topK filters true =
        formatResults
          (((fun f => if f ≠ [] then rerankBySection q f none else f)
            ((store (assocSet "section_id" sid filters)
              (summaryNCandidates topK true
                (assocSet "section_id" sid filters))).map formatHit)).take topK)) ∧
    (∀ (s1 s2 : String) (rest : List String),
      extractSectionIds q = s1 :: s2 :: rest →
      truthyOpt (assocGet "section_id" filters) = false →
      summaryWhereClause q filters true = filters ∧
      summaryNCandidates topK true filters = topK * 4 ∧
      summaryRetrieve store q topK filters true =
        formatResults
          (((fun f => if f ≠ [] then rerankBySection q f none else f)
            ((store filters (topK * 4)).map formatHit)).take topK)) := by
  constructor
  · intro sid hext
    have hw : summaryWhereClause q filters true = assocSet "section_id" sid filters := by
      simp [summaryWhereClause, hext]
    refine ⟨hw, ?_, ?_⟩
    · intro hsid
      simp [summaryNCandidates, assocGet_assocSet, truthyOpt, hsid]
    · simp only [summaryRetrieve, hw]
      simp only [true_and]
  · intro s1 s2 rest hext htruthy
    have hw : summaryWhereClause q filters true = filters := by
      simp [summaryWhereClause, hext]
    have hn : summaryNCandidates topK true filters = topK * 4 := by
      simp [summaryNCandidates, htruthy]
    refine ⟨hw, hn, ?_⟩
    simp only [summaryRetrieve, hw, hn]
    simp only [true_and]

/-- Witness for `c7_section_narrowing` at a concrete store and queries. -/
theorem c7_section_narrowing_witness :
    summaryWhereClause c7Query [] true = [("section_id", "section_2")] ∧
    summaryNCandidates 2 true [("section_id", "section_2")] = 2 ∧
    summaryWhereClause "compare section 1 with section 3" [] true = [] ∧
    summaryNCandidates 2 true [] = 8 := by
  have h1 := (c7_section_narrowing c7Store c7Query 2 []).1 "section_2" (by decide)
  have h2 := (c7_section_narrowing c7Store "compare section 1 with section 3" 2 []).2
    "section_1" "section_3" [] (by decide) (by decide)
  exact ⟨h1.1, h1.2.1 (by decide), h2.1, h2.2.1⟩

/-! ### C8: the rerank passes are no-ops without extracted tokens -/

/-- C8: each pass is an identity on its own: whenever the query yields no
time/date tokens the time pass returns the candidate list unchanged (same
order, same scores, no added fields), regardless of any section
references; and whenever the query references no sections the section
pass returns the list unchanged, regardless of any time tokens. -/
theorem c8_rerank_noop (query : String) (results : List RRes) :
    (extractTimeTokens query = [] → rerankByTime query results none = results) ∧
    (extractSectionIds query = [] → rerankBySection query results none = results) := by
  constructor
  · intro htime
    by_cases hres : results = []
    · simp [rerankByTime, hres]
    · simp [rerankByTime, hres, htime]
  · intro hsec
    by_cases hres : results = []
    · simp [rerankBySection, hres]
    · simp [rerankBySection, hres, hsec]

/-- Witness for `c8_rerank_noop` on the mixed cases: the time pass on a
query that references a section but no time, and the section pass on a
query with a time token but no section reference. -/
theorem c8_rerank_noop_witness :
    extractTimeTokens "summarize section 3" = [] ∧
    extractSectionIds "summarize section 3" = ["section_3"] ∧
    rerankByTime "summarize section 3" [c6Other] none = [c6Other] ∧
    extractSectionIds "what happened at 08:20:05" = [] ∧
    extractTimeTokens "what happened at 08:20:05" = ["08:20:05"] ∧
    rerankBySection "what happened at 08:20:05" [c6Other] none = [c6Other] :=
  ⟨by decide, by decide,
   (c8_rerank_noop "summarize section 3" [c6Other]).1 (by decide),
   by decide, by decide,
   (c8_rerank_noop "what happened at 08:20:05" [c6Other]).2 (by decide)⟩
